import Mathlib

/-!
Verification of the division and natural-logarithm layers of the astro-float
repository (src/src/mantissa/div.rs, src/src/ops/ln.rs) against its
specification.

The mantissa digit type is u32 (Digit), with DoubleDigit = u64 and
DIGIT_BASE = 2^32.  Machine integers are modelled as natural numbers; the
only place the Rust code relies on wrap-around is the final
narrowing cast of a quotient digit (written qh % B below).  DoubleDigit
intermediates are modelled without an explicit modulus; every concrete input
evaluated in this file keeps all of them below 2^64, and the proved theorems
establish bounds (qh below B) under which no 64-bit overflow occurs.

Digit buffers (DigitBuf) and signed slices (SliceWithSign) are not under
src/; the operations on them are modelled from the spec where so marked.
-/

set_option maxRecDepth 4000

namespace AstroFloat

/-- DIGIT_BIT_SIZE of defs.rs (canonical digit width W = 32 per the spec). -/
def W : ℕ := 32

/-- DIGIT_BASE of defs.rs: 2^W. -/
def B : ℕ := 2 ^ 32

/-- Value of a little-endian digit list (index 0 is least significant). -/
def toVal : List ℕ → ℕ
  | [] => 0
  | d :: ds => d + B * toVal ds

/-- Little-endian digit list of a value, written into a buffer of the given
length (the value is truncated modulo B^length, mirroring a fixed buffer). -/
def ofVal : ℕ → ℕ → List ℕ
  | 0, _ => []
  | l + 1, v => v % B :: ofVal l (v / B)

/-- Well-formed digit lists: every entry is a machine digit. -/
def Digits (l : List ℕ) : Prop :=
  ∀ d ∈ l, d < B

/-- Modelled from the spec: Mantissa::mul_by_digit (mantissa helpers are not
under src/) multiplies a digit run by a single factor, producing len+1
digits. -/
def mulByDigit (m : List ℕ) (d : ℕ) : List ℕ :=
  ofVal (m.length + 1) (d * toVal m)

/-- The running single-digit division loop of div_basic (lines 48-59 and
175-185 of div.rs): at each of the given number of slots, computes
qh = rh*B + val, stores qh / d high-to-low, and carries rh = qh % d.
Returns the digits in write order (most significant first) together with the
last stored remainder digit. -/
def divByDigitLoop (d : ℕ) : ℕ → ℕ → List ℕ → List ℕ × ℕ
  | 0, rh, _ => ([], rh)
  | s + 1, rh, vals =>
    let val := vals.headD 0
    let qh := rh * B + val
    let rh2 := qh % d
    let p := divByDigitLoop d s rh2 vals.tail
    (qh / d :: p.1, p.2)

/-- Single-digit-divisor branch of div_basic (n == 0, lines 31-64 of div.rs).
Returns (quotient digits m3, remainder rem), both little-endian. -/
def divBasicSingle (m1 : List ℕ) (d : ℕ) : List ℕ × List ℕ :=
  let l1 := m1.length
  let vals := m1.reverse ++ [0, 0]
  let v0 := vals.headD 0
  if v0 < d then
    if 0 < l1 - 1 then
      let p := divByDigitLoop d (l1 - 1) v0 vals.tail
      (p.1.reverse ++ [0], [p.2])
    else
      ([0], [v0])
  else
    let p := divByDigitLoop d l1 0 vals
    (p.1.reverse, [p.2])

/-- Remainder restoration of div_basic (lines 160-190 of div.rs): divides the
low l2 digits of buf1 by the normalization factor d.  The loop guard j > 0 is
always taken there since j starts at l1 + 1. -/
def divRemRestore (digits : List ℕ) (d : ℕ) : List ℕ :=
  let vals := digits.reverse ++ [0, 0]
  let v0 := vals.headD 0
  if v0 < d then
    (divByDigitLoop d (digits.length - 1) v0 vals.tail).1.reverse ++ [0]
  else
    (divByDigitLoop d digits.length 0 vals).1.reverse

/-- Quotient-digit estimate refinement of div_basic (lines 97-104 of div.rs):
decrement qh at most twice, guided by the second divisor digit v2. -/
def qhatAdjust (v1 v2 u0 : ℕ) (qh rh : ℕ) : ℕ :=
  if B ≤ qh ∨ B * rh + u0 < qh * v2 then
    let qh1 := qh - 1
    let rh1 := rh + v1
    if rh1 < B ∧ (B ≤ qh1 ∨ B * rh1 + u0 < qh1 * v2) then qh1 - 1 else qh1
  else qh

/-- Quotient-digit estimate of div_basic (lines 93-104 of div.rs) from the top
three window digits and top two (normalized) divisor digits. -/
def qhat (v1 v2 u2 u1 u0 : ℕ) : ℕ :=
  qhatAdjust v1 v2 u0 ((u2 * B + u1) / v1) ((u2 * B + u1) % v1)

/-- Fused multiply-subtract loop of div_basic (lines 107-119 of div.rs):
subtracts qh times the divisor digits from the window digits, threading the
product accumulator k and the borrow c.  Returns the updated window digits,
the final borrow, and (as pure instrumentation for the proofs, unused by the
algorithm) the final accumulator value. -/
def subMulLoop (qh : ℕ) : List ℕ → List ℕ → ℕ → ℕ → List ℕ × ℕ × ℕ
  | [], _, k, c => ([], c, k)
  | _ :: _, [], k, c => ([], c, k)
  | a :: as, b :: bs, k, c =>
    let k2 := a * qh + k / B
    let val := k2 % B + c
    if b < val then
      let p := subMulLoop qh as bs k2 1
      ((b + (B - val)) :: p.1, p.2)
    else
      let p := subMulLoop qh as bs k2 0
      ((b - val) :: p.1, p.2)

/-- Compensating add-back loop of div_basic (lines 124-135 of div.rs): adds
the divisor digits back onto the window digits, returning the updated window
and the final carry.  The debug assertion of line 136 states that this carry
is always nonzero. -/
def addLoop : List ℕ → List ℕ → ℕ → List ℕ × ℕ
  | [], _, c => ([], c)
  | _ :: _, [], c => ([], c)
  | a :: as, b :: bs, c =>
    let val := b + a + c
    if B ≤ val then
      let p := addLoop as bs 1
      ((val - B) :: p.1, p.2)
    else
      let p := addLoop as bs 0
      (val :: p.1, p.2)

/-- One iteration of the main loop of div_basic at window position j
(lines 88-154 of div.rs): estimate the quotient digit, subtract, and
compensate once on borrow.  Returns the updated buf1, the effective quotient
digit, and whether the debug assertion held (vacuously true when no add-back
happened). -/
def divBasicStep (buf2 : List ℕ) (v1 v2 n : ℕ) (buf1 : List ℕ) (j : ℕ) :
    List ℕ × ℕ × Bool :=
  let ws := (buf1.drop j).take (n + 2)
  let u2 := ws.getD (n + 1) 0
  let u1 := ws.getD n 0
  let u0 := ws.getD (n - 1) 0
  let qh := qhat v1 v2 u2 u1 u0
  let sp := subMulLoop qh buf2 ws 0 0
  if 0 < sp.2.1 then
    let ap := addLoop buf2 sp.1 0
    (buf1.take j ++ ap.1 ++ buf1.drop (j + n + 2), qh - 1, decide (0 < ap.2))
  else
    (buf1.take j ++ sp.1 ++ buf1.drop (j + n + 2), qh, true)

/-- Main loop of div_basic over window positions j = m-n down to 0, producing
the little-endian quotient digits (position j receives step j's digit, the
top digit zeroed when the first step produced qh = 0), the final buf1, and
the conjunction of all assertion outcomes. -/
def divBasicLoop (buf2 : List ℕ) (v1 v2 n : ℕ) :
    ℕ → List ℕ → Bool → List ℕ × List ℕ × Bool
  | 0, buf1, inl =>
    let st := divBasicStep buf2 v1 v2 n buf1 0
    let digit := if inl = true ∨ 0 < st.2.1 then st.2.1 % B else 0
    ([digit], st.1, st.2.2)
  | j + 1, buf1, inl =>
    let st := divBasicStep buf2 v1 v2 n buf1 (j + 1)
    let digit := if inl = true ∨ 0 < st.2.1 then st.2.1 % B else 0
    let p := divBasicLoop buf2 v1 v2 n j st.1 true
    (p.1 ++ [digit], p.2.1, st.2.2 && p.2.2)

/-- Mantissa::div_basic (lines 16-197 of div.rs).  Knuth Algorithm D.
Returns none where the Rust code divides by a zero digit (which panics);
otherwise some ((quotient, remainder), assertOk) where assertOk records
whether every add-back compensation ended with a nonzero carry
(the debug assertion of line 136).  Callers guarantee
m1.length at least m2.length at least 1. -/
def divBasic (m1 m2 : List ℕ) : Option ((List ℕ × List ℕ) × Bool) :=
  let l1 := m1.length
  let l2 := m2.length
  if l2 = 1 then
    let d := m2.headD 0
    if d = 0 then none
    else some (divBasicSingle m1 d, true)
  else
    let n := l2 - 1
    let m := l1 - 1
    let d := B / (m2.getD n 0 + 1)
    let buf1 := if d = 1 then m1 ++ [0] else mulByDigit m1 d
    let buf2 := if d = 1 then m2 ++ [0] else mulByDigit m2 d
    let v1 := buf2.getD n 0
    let v2 := buf2.getD (n - 1) 0
    if v1 = 0 then none
    else
      let p := divBasicLoop buf2 v1 v2 n (m - n) buf1 false
      let rem := if 1 < d then divRemRestore (p.2.1.take l2) d else p.2.1.take l2
      some ((p.1, rem), p.2.2)

/-- Mantissa::div_correction (lines 200-205 of div.rs): while the partial
remainder is negative, decrement the quotient and add the step back.
SliceWithSign values are modelled as integers (modelled from the spec:
signed slice arithmetic is exact signed addition, util.rs is not under
src/).  The third component instruments the number of loop iterations; the
0 < step guard only excludes the case where the Rust loop would not
terminate (every call site passes a positive step).  The structural fuel
(-a).toNat strictly exceeds the iteration count whenever the loop is
entered, since each iteration moves a up by step which is at least 1, so
the fuel never runs out before the loop guard turns false (proved below in
divCorrectionGo_fuel). -/
def divCorrectionGo : ℕ → ℤ → ℤ → ℤ → ℤ × ℤ × ℕ
  | 0, a, q, _ => (a, q, 0)
  | fuel + 1, a, q, step =>
    if a < 0 ∧ 0 < step then
      let p := divCorrectionGo fuel (a + step) (q - 1) step
      (p.1, p.2.1, p.2.2 + 1)
    else (a, q, 0)

def divCorrection (a q step : ℤ) : ℤ × ℤ × ℕ :=
  divCorrectionGo (-a).toNat a q step

/-- Mantissa::div_recursive (lines 210-284 of div.rs), Burnikel-Ziegler
recursive division.  Signed-slice arithmetic (mul_slices, add_assign,
sub_assign, copy_from) is modelled from the spec as exact integer
arithmetic, with buffers reconstructed as digit lists where the code slices
them; DigitBuf::try_extend places existing digits at the most significant
positions (modelled from the spec and the quotient composition comment of
line 278: quot = q1 * 2^k + q0).  Returns none where the Rust code would
underflow a usize length subtraction; the Bool is the conjunction of
div_basic assertion outcomes and the ℕ the maximum correction-loop
iteration count.  The structural fuel only bounds the recursion depth:
every recursive call is on a strictly shorter dividend slice (the first on
l1 - 2k digits with k at least 1, the second on at most l1 - k), so the
initial fuel m1.length + 1 of the divRecursive wrapper strictly exceeds the
recursion depth and the fuel-exhaustion branch is unreachable. -/
def divRecursiveGo : ℕ → List ℕ → List ℕ →
    Option ((List ℕ × List ℕ) × (Bool × ℕ))
  | 0, _, _ => none
  | fuel + 1, m1, m2 =>
    if m1.length < m2.length then none
    else
      if m1.length - m2.length < 2 then
        (divBasic m1 m2).map (fun p => (p.1, (p.2, 0)))
      else
        let m := m1.length - m2.length
        let k := m / 2
        match divRecursiveGo fuel (m1.drop (2 * k)) (m2.drop k) with
        | none => none
        | some ((q1d, _r1), (ok1, mc1)) =>
          let a : ℤ := toVal m1
          let b : ℤ := toVal m2
          let q1 : ℤ := toVal q1d
          let a3 : ℤ := a - b * q1 * (B : ℤ) ^ k
          let c1 := if a3 < 0 then divCorrection a3 q1 (b * (B : ℤ) ^ k) else (a3, q1, 0)
          let rembuf := ofVal m1.length c1.1.toNat
          let ub := m1.length - rembuf.count 0
          let q1s : ℤ := c1.2.1 * (B : ℤ) ^ k
          if k < ub then
            match divRecursiveGo fuel ((rembuf.drop k).take (ub - k)) (m2.drop k) with
            | none => none
            | some ((q0d, _r0), (ok0, mc0)) =>
              let q0 : ℤ := toVal q0d
              let a3b : ℤ := c1.1 - q0 * b
              let c2 := if a3b < 0 then divCorrection a3b q0 b else (a3b, q0, 0)
              let rembuf2 := ofVal m1.length c2.1.toNat
              some ((ofVal (m + 1) (q1s + c2.2.1).toNat, rembuf2),
                    (ok1 && ok0, max (max mc1 mc0) (max c1.2.2 c2.2.2)))
          else
            some ((ofVal (m + 1) q1s.toNat, rembuf), (ok1, max mc1 c1.2.2))

def divRecursive (m1 m2 : List ℕ) : Option ((List ℕ × List ℕ) × (Bool × ℕ)) :=
  divRecursiveGo (m1.length + 1) m1 m2

/-- Chunk loop of div_unbalanced (lines 304-321 of div.rs): while m > n,
divide the top 2n digits of the running dividend by m2, accumulate the
quotient at offset m-n, and subtract q times m2 at that offset.  The running
dividend is tracked as a signed integer (SliceWithSign semantics modelled
from the spec); slices read its magnitude digits.  The fuel argument only
bounds the recursion and equals the initial m, which the loop strictly
decreases. -/
def divUnbChunks (m2 : List ℕ) (aLen : ℕ) :
    ℕ → ℕ → ℕ → ℕ → ℤ → Option ((ℕ × List ℕ) × (Bool × ℕ))
  | fuel, m, nn, fullq, aval =>
    let n := m2.length
    if n < m then
      match fuel with
      | 0 => none
      | fuel + 1 =>
        let aD := ofVal aLen aval.natAbs
        let mn := m - n
        let a1 := (aD.drop mn).take (aLen - nn - mn)
        match divRecursive a1 m2 with
        | none => none
        | some ((qd, _r), (ok, mc)) =>
          let q := toVal qd
          let fullq2 := fullq + q * B ^ mn
          let aval2 := aval - (toVal m2 : ℤ) * q * (B : ℤ) ^ mn
          match divUnbChunks m2 aLen fuel (m - n) (nn + n) fullq2 aval2 with
          | none => none
          | some (pr, (ok2, mc2)) => some (pr, (ok && ok2, max mc mc2))
    else
      let aD := ofVal aLen aval.natAbs
      match divRecursive (aD.take (aLen - nn)) m2 with
      | none => none
      | some ((qd, r), st) => some ((fullq + toVal qd, r), st)

/-- Mantissa::div_unbalanced (lines 286-330 of div.rs), the public entry.
Returns none where the Rust code would underflow the initial usize length
subtraction. -/
def divUnbalanced (m1 m2 : List ℕ) : Option ((List ℕ × List ℕ) × (Bool × ℕ)) :=
  if m1.length < m2.length then none
  else
    let m := m1.length - m2.length
    let n := m2.length
    if m ≤ n then divRecursive m1 m2
    else if n < 2 then (divBasic m1 m2).map (fun p => (p.1, (p.2, 0)))
    else
      match divUnbChunks m2 m1.length m m 0 0 (toVal m1) with
      | none => none
      | some ((fullq, r), st) => some ((ofVal (m + 1) fullq, r), st)

/-- The three code paths reachable from div_unbalanced's dispatch. -/
inductive DivBranch
  | recursive
  | basic
  | chunked
deriving DecidableEq

/-- Dispatch structure of div_unbalanced (lines 287-293 of div.rs), as a
function of the two digit counts (meaningful for l2 at most l1, where the
usize subtraction does not underflow). -/
def divDispatch (l1 l2 : ℕ) : DivBranch :=
  if l1 - l2 ≤ l2 then DivBranch.recursive
  else if l2 < 2 then DivBranch.basic
  else DivBranch.chunked



/-! Number-layer model for the ln claims.  The number type (num.rs), series
runner and cost optimizer (ops/series.rs), and constants cache are not under
src/, so they are modelled from the spec as stated in each doc comment.
Exact rationals stand for mantissa values; computations at
RoundingMode::None are treated as exact, matching the spec's reading of
None as keeping guard bits as computed. -/

/-- Modelled from the spec: a finite Number of the core layer, a triple of
sign, signed binary exponent and a mantissa fraction (the wrapper keeps
NaN and infinities away from the core). -/
structure BFN where
  sign : Int
  exp : ℤ
  frac : ℚ

/-- BigFloatNumber::is_zero: the mantissa is zero. -/
def BFN.isZero (x : BFN) : Bool := decide (x.frac = 0)

/-- BigFloatNumber::is_negative: the sign is negative. -/
def BFN.isNegative (x : BFN) : Bool := decide (x.sign < 0)

/-- Value of a Number: sign times mantissa fraction times 2^exponent. -/
def BFN.value (x : BFN) : ℚ := x.sign * x.frac * (2 : ℚ) ^ x.exp

/-- Error kinds of defs.rs, modelled from the spec (section 3, Error kinds). -/
inductive FError
  | InvalidArgument
  | DivisionByZero
  | MemoryAllocation
  | ExponentOverflow (sign : Int)
deriving DecidableEq

/-- Modelled from the spec: the numeric pipeline of BigFloatNumber::ln after
the domain guard (normalize2, guard-bit extension, ln_series, the ln 2
cache, final multiply-add and rounding; lines 106-136 of ln.rs).  With all
allocations succeeding, every step of that pipeline is total on a positive
finite argument, so it is modelled as a total function on the number model;
its numeric content is irrelevant to the error-surface claim. -/
def lnBody (x : BFN) : BFN :=
  { sign := 1, exp := x.exp, frac := x.frac }

/-- BigFloatNumber::ln (lines 94-137 of ln.rs): the domain guard
(lines 101-104) rejects zero and negative arguments with InvalidArgument;
otherwise the pipeline runs to completion (allocations assumed to
succeed). -/
def ln (x : BFN) : Except FError BFN :=
  if x.isZero = true ∨ x.isNegative = true then Except.error FError.InvalidArgument
  else Except.ok (lnBody x)

/-- BigFloatNumber::set_exponent, a pure field update per the spec. -/
def setExponent (x : BFN) (e : ℤ) : BFN :=
  { x with exp := e }

/-- BigFloatNumber::ln_arg_restore (lines 179-184 of ln.rs): increase the
exponent by n, i.e. multiply by 2^n. -/
def lnArgRestore (x : BFN) (n : ℕ) : BFN :=
  setExponent x (x.exp + n)

/-- BigFloatNumber::ln_arg_reduce (lines 169-176 of ln.rs): apply sqrt n
times.  The square root itself lives in num.rs (not under src/), so it is
a function parameter here. -/
def lnArgReduce (sqrt : BFN → BFN) (x : BFN) (n : ℕ) : BFN :=
  sqrt^[n] x

/-- BigFloatNumber::ln_series (lines 139-166 of ln.rs) at the structural
level: reduce the argument reduction_times times when positive, evaluate
the series (the substitution and series_run are abstracted into the run
parameter; reduction_times itself stands for the output of
series_cost_optimize, ops/series.rs not being under src/), and restore with
reduction_times + 1 (line 165). -/
def lnSeries (sqrt : BFN → BFN) (run : BFN → BFN) (x : BFN)
    (reductionTimes : ℕ) : BFN :=
  let arg := if 0 < reductionTimes then lnArgReduce sqrt x reductionTimes else x
  let ret := run arg
  lnArgRestore ret (reductionTimes + 1)

/-- State of AtanhPolycoeffGen (lines 22-27 of ln.rs) over exact rationals:
the running odd denominator acc, the constant numerator one_full_p, and the
last produced coefficient val. -/
structure AtanhGen where
  acc : ℚ
  one_full_p : ℚ
  val : ℚ

/-- AtanhPolycoeffGen::new (lines 31-45 of ln.rs): acc, one_full_p and val
all start as the number 1 (from_word(1, p)). -/
def AtanhGen.new : AtanhGen :=
  { acc := 1, one_full_p := 1, val := 1 }

/-- AtanhPolycoeffGen::next (lines 49-55 of ln.rs): acc grows by two, the
coefficient produced is one_full_p / acc. -/
def AtanhGen.next (g : AtanhGen) : AtanhGen × ℚ :=
  let acc := g.acc + 2
  let val := g.one_full_p / acc
  ({ acc := acc, one_full_p := g.one_full_p, val := val }, val)

/-- The k-th coefficient produced by repeatedly calling next (k counted from
zero: genNth g 0 is the first output). -/
def genNth (g : AtanhGen) : ℕ → ℚ
  | 0 => g.next.2
  | n + 1 => genNth g.next.1 n

/-- Modelled from the spec: series_run (ops/series.rs is not under src/)
computes acc plus the sum of c_k x_k, where x_1 = x_first,
x_{k+1} = x_k * x_step, and c_k is the k-th generator coefficient, for
niter iterations. -/
def seriesRun (g : AtanhGen) (acc xfirst xstep : ℚ) : ℕ → ℚ
  | 0 => acc
  | n + 1 =>
    let p := g.next
    seriesRun p.1 (acc + p.2 * xfirst) (xfirst * xstep) xstep n

/-- The series evaluation of ln_series (lines 155-163 of ln.rs) on exact
rationals: z = (arg - 1) / (arg + 1), x_step = z^2, x_first = z * x_step,
run with initial accumulator z. -/
def lnSeriesSum (f : ℚ) (niter : ℕ) : ℚ :=
  let x1 := f - 1
  let x2 := f + 1
  let z := x1 / x2
  let xstep := z * z
  let xfirst := z * xstep
  seriesRun AtanhGen.new z xfirst xstep niter


/-! Basic facts about digit lists. -/

instance decidableDigits (l : List ℕ) : Decidable (Digits l) :=
  inferInstanceAs (Decidable (∀ d ∈ l, d < B))

theorem B_pos : 0 < B := by
  norm_num [B]

theorem one_lt_B : 1 < B := by
  norm_num [B]

@[simp]
theorem toVal_nil : toVal [] = 0 := rfl

@[simp]
theorem toVal_cons (d : ℕ) (ds : List ℕ) : toVal (d :: ds) = d + B * toVal ds := rfl

@[simp]
theorem ofVal_length (l v : ℕ) : (ofVal l v).length = l := by
  induction l generalizing v with
  | zero => rfl
  | succ l ih => simp [ofVal, ih]

theorem toVal_ofVal (l v : ℕ) : toVal (ofVal l v) = v % B ^ l := by
  induction l generalizing v with
  | zero => simp [ofVal, Nat.mod_one]
  | succ l ih =>
    simp only [ofVal, toVal_cons, ih]
    rw [pow_succ, Nat.mul_comm (B ^ l) B, Nat.mod_mul]

theorem toVal_ofVal_of_lt {l v : ℕ} (h : v < B ^ l) : toVal (ofVal l v) = v := by
  rw [toVal_ofVal, Nat.mod_eq_of_lt h]

theorem ofVal_digits (l v : ℕ) : Digits (ofVal l v) := by
  induction l generalizing v with
  | zero => intro d hd; simp [ofVal] at hd
  | succ l ih =>
    intro d hd
    simp only [ofVal, List.mem_cons] at hd
    rcases hd with h | h
    · subst h; exact Nat.mod_lt _ B_pos
    · exact ih _ d h

theorem toVal_lt {l : List ℕ} (h : Digits l) : toVal l < B ^ l.length := by
  induction l with
  | nil => simp [B]
  | cons d ds ih =>
    have hd : d < B := h d (List.mem_cons_self _ _)
    have hds : Digits ds := fun x hx => h x (List.mem_cons_of_mem _ hx)
    have := ih hds
    simp only [toVal_cons, List.length_cons, pow_succ]
    calc d + B * toVal ds < B + B * toVal ds := by omega
    _ = B * (toVal ds + 1) := by ring
    _ ≤ B * B ^ ds.length := by
        have : toVal ds + 1 ≤ B ^ ds.length := this
        exact Nat.mul_le_mul_left _ this
    _ = B ^ ds.length * B := by ring

theorem toVal_append (l1 l2 : List ℕ) :
    toVal (l1 ++ l2) = toVal l1 + B ^ l1.length * toVal l2 := by
  induction l1 with
  | nil => simp
  | cons d ds ih =>
    simp only [List.cons_append, toVal_cons, ih, List.length_cons, pow_succ]
    ring

theorem digits_sub {l l' : List ℕ} (h : Digits l) (hsub : l' ⊆ l) : Digits l' :=
  fun d hd => h d (hsub hd)

theorem digits_take {l : List ℕ} (h : Digits l) (t : ℕ) : Digits (l.take t) :=
  digits_sub h (List.take_subset t l)

theorem digits_drop {l : List ℕ} (h : Digits l) (t : ℕ) : Digits (l.drop t) :=
  digits_sub h (List.drop_subset t l)

theorem digits_append {l1 l2 : List ℕ} (h1 : Digits l1) (h2 : Digits l2) :
    Digits (l1 ++ l2) := by
  intro d hd
  rcases List.mem_append.mp hd with h | h
  · exact h1 d h
  · exact h2 d h

theorem toVal_take {l : List ℕ} (h : Digits l) (t : ℕ) :
    toVal (l.take t) = toVal l % B ^ t := by
  induction l generalizing t with
  | nil => simp
  | cons d ds ih =>
    cases t with
    | zero => simp [Nat.mod_one]
    | succ t =>
      have hd : d < B := h d (List.mem_cons_self _ _)
      have hds : Digits ds := fun x hx => h x (List.mem_cons_of_mem _ hx)
      simp only [List.take_succ_cons, toVal_cons, ih hds]
      rw [pow_succ, Nat.mul_comm (B ^ t) B, Nat.mod_mul]
      have h1 : (d + B * toVal ds) % B = d := by
        rw [Nat.add_mul_mod_self_left, Nat.mod_eq_of_lt hd]
      have h2 : (d + B * toVal ds) / B = toVal ds := by
        rw [Nat.add_mul_div_left _ _ B_pos, Nat.div_eq_of_lt hd, Nat.zero_add]
      rw [h1, h2]

theorem toVal_drop {l : List ℕ} (h : Digits l) (t : ℕ) :
    toVal (l.drop t) = toVal l / B ^ t := by
  induction l generalizing t with
  | nil => simp
  | cons d ds ih =>
    cases t with
    | zero => simp
    | succ t =>
      have hd : d < B := h d (List.mem_cons_self _ _)
      have hds : Digits ds := fun x hx => h x (List.mem_cons_of_mem _ hx)
      simp only [List.drop_succ_cons, toVal_cons, ih hds]
      have h2 : (d + B * toVal ds) / B = toVal ds := by
        rw [Nat.add_mul_div_left _ _ B_pos, Nat.div_eq_of_lt hd, Nat.zero_add]
      rw [pow_succ, Nat.mul_comm (B ^ t) B, ← Nat.div_div_eq_div_mul, h2]

theorem headD_eq_val {l : List ℕ} (h : Digits l) :
    l.headD 0 = toVal l % B := by
  cases l with
  | nil => simp
  | cons d ds =>
    have hd : d < B := h d (List.mem_cons_self _ _)
    simp [Nat.add_mul_mod_self_left, Nat.mod_eq_of_lt hd]

theorem getD_eq_val {l : List ℕ} (h : Digits l) (i : ℕ) :
    l.getD i 0 = toVal l / B ^ i % B := by
  have h1 : l.getD i 0 = (l.drop i).headD 0 := by
    induction l generalizing i with
    | nil => simp
    | cons d ds ih =>
      cases i with
      | zero => simp
      | succ i => simp only [List.getD_cons_succ, List.drop_succ_cons]; exact ih (fun x hx => h x (List.mem_cons_of_mem _ hx)) i
  rw [h1, headD_eq_val (digits_drop h i), toVal_drop h i]


/-! Normalization (the d factor of div_basic).  The central arithmetic fact:
multiplying by d = B / (t + 1) lifts a nonzero top digit t into the upper
half of the digit range. -/

theorem normFactor_mul_ge {t : ℕ} (h1 : 0 < t) (h2 : t < B) :
    B / 2 ≤ B / (t + 1) * t := by
  obtain ⟨d, hd⟩ : ∃ d, B / (t + 1) = d := ⟨_, rfl⟩
  obtain ⟨r, hr⟩ : ∃ r, B % (t + 1) = r := ⟨_, rfl⟩
  have hds : (t + 1) * d + r = B := by
    rw [← hd, ← hr]
    exact Nat.div_add_mod B (t + 1)
  have hrlt : r < t + 1 := by
    rw [← hr]
    exact Nat.mod_lt _ (by omega)
  have hB2 : B / 2 * 2 = B := by norm_num [B]
  rw [hd]
  have htd : (t + 1) * d = d * t + d := by ring
  rcases le_or_lt (t + 1) (B / 2) with hcase | hcase
  · -- small t + 1: d is at least 2 and r is at most d * (t - 1)
    have hd2 : 2 ≤ d := by
      rw [← hd, Nat.le_div_iff_mul_le (by omega)]
      omega
    have hrZ : r ≤ d * (t - 1) := by
      rcases Nat.lt_or_ge t 2 with h | h
      · have ht1 : t = 1 := by omega
        have hr0 : r = 0 := by
          rw [← hr, ht1]
          norm_num [B]
        omega
      · have h4 : 2 * (t - 1) ≤ d * (t - 1) := Nat.mul_le_mul_right _ hd2
        omega
    have hZ : d * (t - 1) + d = d * t := by
      have ht : t - 1 + 1 = t := by omega
      calc d * (t - 1) + d = d * ((t - 1) + 1) := by ring
      _ = d * t := by rw [ht]
    omega
  · -- large t + 1: the top digit t alone already reaches B / 2
    have hd1 : 1 ≤ d := by
      rw [← hd, Nat.one_le_div_iff (by omega)]
      omega
    have hge : 1 * t ≤ d * t := Nat.mul_le_mul_right _ hd1
    omega

/-- The digit of index i times its weight is a lower bound on the value. -/
theorem getD_mul_le {l : List ℕ} (h : Digits l) (i : ℕ) :
    l.getD i 0 * B ^ i ≤ toVal l := by
  rw [getD_eq_val h i]
  calc toVal l / B ^ i % B * B ^ i ≤ toVal l / B ^ i * B ^ i :=
        Nat.mul_le_mul_right _ (Nat.mod_le _ _)
  _ ≤ toVal l := Nat.div_mul_le_self _ _

/-- When the value fits below B^(i+1), the digit of index i determines an
upper bound of the value. -/
theorem lt_getD_succ_mul {l : List ℕ} (h : Digits l) (i : ℕ)
    (hv : toVal l < B ^ (i + 1)) :
    toVal l < (l.getD i 0 + 1) * B ^ i := by
  have hpow : 0 < B ^ i := Nat.pos_pow_of_pos i B_pos
  have hdivlt : toVal l / B ^ i < B := by
    rw [Nat.div_lt_iff_lt_mul hpow]
    calc toVal l < B ^ (i + 1) := hv
    _ = B * B ^ i := by rw [pow_succ]; ring
  have hget : l.getD i 0 = toVal l / B ^ i := by
    rw [getD_eq_val h i, Nat.mod_eq_of_lt hdivlt]
  rw [hget]
  have h1 := Nat.div_add_mod (toVal l) (B ^ i)
  have h2 := Nat.mod_lt (toVal l) hpow
  calc toVal l = B ^ i * (toVal l / B ^ i) + toVal l % B ^ i := h1.symm
  _ < B ^ i * (toVal l / B ^ i) + B ^ i := by omega
  _ = (toVal l / B ^ i + 1) * B ^ i := by ring

/-- A digit above the weight of the whole value is zero. -/
theorem getD_of_lt_pow {l : List ℕ} (h : Digits l) {i : ℕ}
    (hv : toVal l < B ^ i) : l.getD i 0 = 0 := by
  rw [getD_eq_val h i, Nat.div_eq_of_lt hv]
  rfl

/-- Value, length, digit bounds, size and the upper-half property of the
normalized divisor buffer buf2 of div_basic (lines 66-78 of div.rs); the
d = 1 clone path and the multiplication path produce the same value. -/
theorem buf2_full (m2 : List ℕ) (hd : Digits m2) (hne : m2 ≠ [])
    (htop : 0 < m2.getD (m2.length - 1) 0) :
    let n := m2.length - 1
    let t := m2.getD n 0
    let d := B / (t + 1)
    let buf2 := if d = 1 then m2 ++ [0] else mulByDigit m2 d
    toVal buf2 = d * toVal m2 ∧ buf2.length = m2.length + 1 ∧ Digits buf2 ∧
      toVal buf2 < B ^ (n + 1) ∧ B / 2 ≤ buf2.getD n 0 := by
  intro n t d buf2
  have hlen1 : m2.length = n + 1 := by
    cases m2 with
    | nil => exact absurd rfl hne
    | cons a as => simp [n]
  have htB : t < B := by
    have := getD_eq_val hd n
    rw [show m2.getD n 0 = t from rfl] at this
    rw [this]
    exact Nat.mod_lt _ B_pos
  have hdpos : 0 < d := Nat.div_pos (by omega) (by omega)
  have hup : toVal m2 < (t + 1) * B ^ n := by
    apply lt_getD_succ_mul hd
    rw [← hlen1]
    exact toVal_lt hd
  have hlow : t * B ^ n ≤ toVal m2 := getD_mul_le hd n
  have hdtB : d * (t + 1) ≤ B := by
    rw [show d = B / (t + 1) from rfl]
    exact Nat.div_mul_le_self B (t + 1)
  have hsize : d * toVal m2 < B ^ (n + 1) := by
    calc d * toVal m2 < d * ((t + 1) * B ^ n) :=
          mul_lt_mul_of_pos_left hup hdpos
    _ = d * (t + 1) * B ^ n := by ring
    _ ≤ B * B ^ n := Nat.mul_le_mul_right _ hdtB
    _ = B ^ (n + 1) := by rw [pow_succ]; ring
  have hfit : d * toVal m2 < B ^ (m2.length + 1) := by
    calc d * toVal m2 < B ^ (n + 1) := hsize
    _ ≤ B ^ (m2.length + 1) := Nat.pow_le_pow_right B_pos (by omega)
  have hval : toVal buf2 = d * toVal m2 := by
    by_cases h1 : d = 1
    · simp only [buf2, if_pos h1, toVal_append, h1]
      simp
    · simp only [buf2, if_neg h1, mulByDigit]
      exact toVal_ofVal_of_lt hfit
  have hblen : buf2.length = m2.length + 1 := by
    by_cases h1 : d = 1
    · simp only [buf2, if_pos h1]
      simp
    · simp only [buf2, if_neg h1, mulByDigit, ofVal_length]
  have hbdig : Digits buf2 := by
    by_cases h1 : d = 1
    · simp only [buf2, if_pos h1]
      apply digits_append hd
      intro x hx
      simp at hx
      subst hx
      exact B_pos
    · simp only [buf2, if_neg h1, mulByDigit]
      exact ofVal_digits _ _
  refine ⟨hval, hblen, hbdig, ?_, ?_⟩
  · rw [hval]
    exact hsize
  · have hpow : 0 < B ^ n := Nat.pos_pow_of_pos n B_pos
    have hdivlt : toVal buf2 / B ^ n < B := by
      rw [Nat.div_lt_iff_lt_mul hpow]
      calc toVal buf2 < B ^ (n + 1) := hval ▸ hsize
      _ = B * B ^ n := by rw [pow_succ]; ring
    have hget : buf2.getD n 0 = toVal buf2 / B ^ n := by
      rw [getD_eq_val hbdig n, Nat.mod_eq_of_lt hdivlt]
    rw [hget, Nat.le_div_iff_mul_le hpow, hval]
    calc B / 2 * B ^ n ≤ d * t * B ^ n :=
          Nat.mul_le_mul_right _ (normFactor_mul_ge htop htB)
    _ = d * (t * B ^ n) := by ring
    _ ≤ d * toVal m2 := Nat.mul_le_mul_left _ hlow

/-! Value specifications of the subtract and add-back loops. -/

theorem addLoop_spec : ∀ (as bs : List ℕ) (c : ℕ), Digits as → Digits bs →
    bs.length = as.length → c ≤ 1 →
    (addLoop as bs c).1.length = as.length ∧ Digits (addLoop as bs c).1 ∧
    (addLoop as bs c).2 ≤ 1 ∧
    toVal (addLoop as bs c).1 + (addLoop as bs c).2 * B ^ as.length =
      toVal bs + toVal as + c := by
  intro as
  induction as with
  | nil =>
    intro bs c _ _ hlen hc
    cases bs with
    | nil => simp [addLoop, hc, Digits]
    | cons b bs' => simp at hlen
  | cons a as ih =>
    intro bs c hda hdb hlen hc
    cases bs with
    | nil => simp at hlen
    | cons b bs' =>
      have hda' : Digits as := fun x hx => hda x (List.mem_cons_of_mem _ hx)
      have hdb' : Digits bs' := fun x hx => hdb x (List.mem_cons_of_mem _ hx)
      have ha : a < B := hda a (List.mem_cons_self _ _)
      have hb : b < B := hdb b (List.mem_cons_self _ _)
      have hlen' : bs'.length = as.length := by simpa using hlen
      by_cases hcase : B ≤ b + a + c
      · have hstep : addLoop (a :: as) (b :: bs') c =
            ((b + a + c - B) :: (addLoop as bs' 1).1, (addLoop as bs' 1).2) := by
          simp [addLoop, hcase]
        obtain ⟨ihlen, ihdig, ihc, ihval⟩ := ih bs' 1 hda' hdb' hlen' le_rfl
        rw [hstep]
        refine ⟨by simp [ihlen], ?_, ihc, ?_⟩
        · intro x hx
          rcases List.mem_cons.mp hx with h | h
          · omega
          · exact ihdig x h
        · simp only [toVal_cons, List.length_cons, pow_succ]
          have hexp : b + a + c - B + B * toVal (addLoop as bs' 1).1 +
              (addLoop as bs' 1).2 * (B ^ as.length * B) =
              b + a + c - B + (toVal (addLoop as bs' 1).1 +
                (addLoop as bs' 1).2 * B ^ as.length) * B := by ring
          rw [hexp, ihval]
          have hBle : B ≤ b + a + c := hcase
          calc b + a + c - B + (toVal bs' + toVal as + 1) * B
              = (b + a + c - B + B) + toVal bs' * B + toVal as * B := by ring
          _ = b + a + c + toVal bs' * B + toVal as * B := by
                rw [Nat.sub_add_cancel hBle]
          _ = b + B * toVal bs' + (a + B * toVal as) + c := by ring
      · have hstep : addLoop (a :: as) (b :: bs') c =
            ((b + a + c) :: (addLoop as bs' 0).1, (addLoop as bs' 0).2) := by
          simp [addLoop, hcase]
        obtain ⟨ihlen, ihdig, ihc, ihval⟩ := ih bs' 0 hda' hdb' hlen' (by omega)
        rw [hstep]
        refine ⟨by simp [ihlen], ?_, ihc, ?_⟩
        · intro x hx
          rcases List.mem_cons.mp hx with h | h
          · omega
          · exact ihdig x h
        · simp only [toVal_cons, List.length_cons, pow_succ]
          have hexp : b + a + c + B * toVal (addLoop as bs' 0).1 +
              (addLoop as bs' 0).2 * (B ^ as.length * B) =
              b + a + c + (toVal (addLoop as bs' 0).1 +
                (addLoop as bs' 0).2 * B ^ as.length) * B := by ring
          rw [hexp, ihval]
          ring

theorem subMulLoop_spec : ∀ (as bs : List ℕ) (k c qh : ℕ), Digits as →
    Digits bs → bs.length = as.length → c ≤ 1 → k < B ^ 2 → qh ≤ B →
    (subMulLoop qh as bs k c).1.length = as.length ∧
    Digits (subMulLoop qh as bs k c).1 ∧
    (subMulLoop qh as bs k c).2.1 ≤ 1 ∧
    (subMulLoop qh as bs k c).2.2 < B ^ 2 ∧
    (as.getLast? = some 0 → (subMulLoop qh as bs k c).2.2 < B) ∧
    toVal (subMulLoop qh as bs k c).1 + qh * toVal as + k / B + c =
      toVal bs + (subMulLoop qh as bs k c).2.1 * B ^ as.length +
        (subMulLoop qh as bs k c).2.2 / B * B ^ as.length := by
  intro as
  induction as with
  | nil =>
    intro bs k c qh _ _ hlen hc hk hqh
    have hbs : bs = [] := List.length_eq_zero.mp hlen
    subst hbs
    refine ⟨rfl, ?_, hc, hk, ?_, ?_⟩
    · intro x hx
      simp [subMulLoop] at hx
    · intro h
      simp at h
    · simp [subMulLoop]
      omega
  | cons a as ih =>
    intro bs k c qh hda hdb hlen hc hk hqh
    cases bs with
    | nil => simp at hlen
    | cons b bs' =>
      have hda' : Digits as := fun x hx => hda x (List.mem_cons_of_mem _ hx)
      have hdb' : Digits bs' := fun x hx => hdb x (List.mem_cons_of_mem _ hx)
      have ha : a < B := hda a (List.mem_cons_self _ _)
      have hb : b < B := hdb b (List.mem_cons_self _ _)
      have hlen' : bs'.length = as.length := by simpa using hlen
      have hkB : k / B < B := by
        have hlt : k < B * B := by rwa [pow_two] at hk
        exact Nat.div_lt_of_lt_mul hlt
      have hk2lt : a * qh + k / B < B ^ 2 := by
        rw [pow_two]
        have h1 : a * qh ≤ (B - 1) * B := Nat.mul_le_mul (by omega) hqh
        have h2 : (B - 1) * B + B = B * B := by
          have hB1 : B - 1 + 1 = B := by
            have := B_pos
            omega
          calc (B - 1) * B + B = ((B - 1) + 1) * B := by ring
          _ = B * B := by rw [hB1]
        omega
      have hmod : (a * qh + k / B) % B < B := Nat.mod_lt _ B_pos
      have hvalB : (a * qh + k / B) % B + c ≤ B := by omega
      have hdmZ : (B : ℤ) * ((a * qh + k / B) / B : ℕ) + ((a * qh + k / B) % B : ℕ) =
          ((a * qh + k / B : ℕ) : ℤ) := by
        exact_mod_cast Nat.div_add_mod (a * qh + k / B) B
      have hk2Z : ((a * qh + k / B : ℕ) : ℤ) = (a : ℤ) * qh + ((k / B : ℕ) : ℤ) := by
        push_cast
        ring
      by_cases hcase : b < (a * qh + k / B) % B + c
      · have hstep : subMulLoop qh (a :: as) (b :: bs') k c =
            ((b + (B - ((a * qh + k / B) % B + c))) ::
              (subMulLoop qh as bs' (a * qh + k / B) 1).1,
             (subMulLoop qh as bs' (a * qh + k / B) 1).2) := by
          simp [subMulLoop, hcase]
        obtain ⟨ihlen, ihdig, ihc, ihk, ihtop, ihval⟩ :=
          ih bs' (a * qh + k / B) 1 qh hda' hdb' hlen' le_rfl hk2lt hqh
        rw [hstep]
        refine ⟨by simp [ihlen], ?_, ihc, ihk, ?_, ?_⟩
        · intro x hx
          rcases List.mem_cons.mp hx with h | h
          · omega
          · exact ihdig x h
        · intro hlast
          cases as with
          | nil =>
            have ha0 : a = 0 := by
              simp at hlast
              exact hlast
            have hres : (subMulLoop qh ([] : List ℕ) bs' (a * qh + k / B) 1).2.2 =
                a * qh + k / B := by
              cases bs' <;> rfl
            rw [hres, ha0]
            simpa using hkB
          | cons a2 as2 =>
            apply ihtop
            simpa using hlast
        · simp only [toVal_cons, List.length_cons, pow_succ]
          obtain ⟨kd, hkd⟩ : ∃ x, k / B = x := ⟨_, rfl⟩
          simp only [hkd] at hdmZ hk2Z ihval hvalB hmod ⊢
          obtain ⟨k2d, hk2d⟩ : ∃ x, (a * qh + kd) / B = x := ⟨_, rfl⟩
          obtain ⟨k2m, hk2m⟩ : ∃ x, (a * qh + kd) % B = x := ⟨_, rfl⟩
          simp only [hk2d, hk2m] at hdmZ ihval hvalB hmod ⊢
          obtain ⟨kfd, hkfd⟩ :
              ∃ x, (subMulLoop qh as bs' (a * qh + kd) 1).2.2 / B = x := ⟨_, rfl⟩
          simp only [hkfd] at ihval ⊢
          have hk2mB : k2m + c ≤ B := by omega
          have ihZ : (toVal (subMulLoop qh as bs' (a * qh + kd) 1).1 : ℤ) +
              (qh : ℤ) * toVal as + (k2d : ℤ) + 1 =
              (toVal bs' : ℤ) +
                ((subMulLoop qh as bs' (a * qh + kd) 1).2.1 : ℤ) * (B : ℤ) ^ as.length +
                (kfd : ℤ) * (B : ℤ) ^ as.length := by
            exact_mod_cast ihval
          zify [hk2mB]
          linear_combination (B : ℤ) * ihZ - hdmZ - hk2Z
      · have hstep : subMulLoop qh (a :: as) (b :: bs') k c =
            ((b - ((a * qh + k / B) % B + c)) ::
              (subMulLoop qh as bs' (a * qh + k / B) 0).1,
             (subMulLoop qh as bs' (a * qh + k / B) 0).2) := by
          simp [subMulLoop, hcase]
        obtain ⟨ihlen, ihdig, ihc, ihk, ihtop, ihval⟩ :=
          ih bs' (a * qh + k / B) 0 qh hda' hdb' hlen' (by omega) hk2lt hqh
        rw [hstep]
        have hble : (a * qh + k / B) % B + c ≤ b := not_lt.mp hcase
        refine ⟨by simp [ihlen], ?_, ihc, ihk, ?_, ?_⟩
        · intro x hx
          rcases List.mem_cons.mp hx with h | h
          · omega
          · exact ihdig x h
        · intro hlast
          cases as with
          | nil =>
            have ha0 : a = 0 := by
              simp at hlast
              exact hlast
            have hres : (subMulLoop qh ([] : List ℕ) bs' (a * qh + k / B) 0).2.2 =
                a * qh + k / B := by
              cases bs' <;> rfl
            rw [hres, ha0]
            simpa using hkB
          | cons a2 as2 =>
            apply ihtop
            simpa using hlast
        · simp only [toVal_cons, List.length_cons, pow_succ]
          obtain ⟨kd, hkd⟩ : ∃ x, k / B = x := ⟨_, rfl⟩
          simp only [hkd] at hdmZ hk2Z ihval hble hvalB hmod ⊢
          obtain ⟨k2d, hk2d⟩ : ∃ x, (a * qh + kd) / B = x := ⟨_, rfl⟩
          obtain ⟨k2m, hk2m⟩ : ∃ x, (a * qh + kd) % B = x := ⟨_, rfl⟩
          simp only [hk2d, hk2m] at hdmZ ihval hble hvalB hmod ⊢
          obtain ⟨kfd, hkfd⟩ :
              ∃ x, (subMulLoop qh as bs' (a * qh + kd) 0).2.2 / B = x := ⟨_, rfl⟩
          simp only [hkfd] at ihval ⊢
          have ihZ : (toVal (subMulLoop qh as bs' (a * qh + kd) 0).1 : ℤ) +
              (qh : ℤ) * toVal as + (k2d : ℤ) + 0 =
              (toVal bs' : ℤ) +
                ((subMulLoop qh as bs' (a * qh + kd) 0).2.1 : ℤ) * (B : ℤ) ^ as.length +
                (kfd : ℤ) * (B : ℤ) ^ as.length := by
            exact_mod_cast ihval
          zify [hble]
          linear_combination (B : ℤ) * ihZ - hdmZ - hk2Z

/-! The quotient-digit estimate analysis (Knuth 4.3.1, Theorems A and B,
adapted to the two-decrement refinement of div_basic): under the window
invariant u < B * v and a normalized divisor, the estimate is never below
the true quotient digit and overshoots it by at most one. -/

theorem div_lt_succ_mul (a b : ℕ) (hb : 0 < b) : a < (a / b + 1) * b := by
  have h1 := Nat.div_add_mod a b
  have h2 := Nat.mod_lt a hb
  have h3 : (a / b + 1) * b = b * (a / b) + b := by ring
  omega

theorem qhat_bounds (u v n : ℕ) (hn : 1 ≤ n) (_hvhi : v < B ^ (n + 1))
    (hv1 : B / 2 ≤ v / B ^ n) (hu : u < B * v) :
    u / v ≤ qhat (v / B ^ n) (v / B ^ (n - 1) % B)
        (u / B ^ (n + 1)) (u / B ^ n % B) (u / B ^ (n - 1) % B) ∧
      qhat (v / B ^ n) (v / B ^ (n - 1) % B)
        (u / B ^ (n + 1)) (u / B ^ n % B) (u / B ^ (n - 1) % B) ≤ u / v + 1 := by
  have hB2 : B / 2 * 2 = B := by norm_num [B]
  have hB2pos : 0 < B / 2 := by norm_num [B]
  have hpn : 0 < B ^ n := Nat.pos_pow_of_pos n B_pos
  have hpn1 : 0 < B ^ (n - 1) := Nat.pos_pow_of_pos _ B_pos
  have hpow_eq : B ^ (n - 1) * B = B ^ n := by
    rw [← pow_succ]
    congr 1
    omega
  have hpow_eq2 : B ^ n * B = B ^ (n + 1) := by rw [← pow_succ]
  set v1 := v / B ^ n with hv1def
  set vt := v / B ^ (n - 1) with hvtdef
  set v2 := vt % B with hv2def
  have hvtB : vt / B = v1 := by
    rw [hvtdef, hv1def, Nat.div_div_eq_div_mul, hpow_eq]
  have hvt : B * v1 + v2 = vt := by
    rw [← hvtB, hv2def]
    exact Nat.div_add_mod vt B
  have hv_dec_lo : v1 * B ^ n + v2 * B ^ (n - 1) ≤ v := by
    have h1 : vt * B ^ (n - 1) ≤ v := Nat.div_mul_le_self v _
    have h2 : vt * B ^ (n - 1) = v1 * B ^ n + v2 * B ^ (n - 1) := by
      rw [← hvt, ← hpow_eq]
      ring
    omega
  have hv_dec_hi : v + 1 ≤ v1 * B ^ n + v2 * B ^ (n - 1) + B ^ (n - 1) := by
    have h1 : v < (vt + 1) * B ^ (n - 1) := div_lt_succ_mul v _ hpn1
    have h2 : (vt + 1) * B ^ (n - 1) = v1 * B ^ n + v2 * B ^ (n - 1) + B ^ (n - 1) := by
      rw [← hvt, ← hpow_eq]
      ring
    omega
  set utop := u / B ^ n with hutopdef
  set ut := u / B ^ (n - 1) with hutdef
  set u0 := ut % B with hu0def
  set u1 := utop % B with hu1def
  set u2 := u / B ^ (n + 1) with hu2def
  have hutB : ut / B = utop := by
    rw [hutdef, hutopdef, Nat.div_div_eq_div_mul, hpow_eq]
  have hut : B * utop + u0 = ut := by
    rw [← hutB, hu0def]
    exact Nat.div_add_mod ut B
  have hu_dec_lo : utop * B ^ n + u0 * B ^ (n - 1) ≤ u := by
    have h1 : ut * B ^ (n - 1) ≤ u := Nat.div_mul_le_self u _
    have h2 : ut * B ^ (n - 1) = utop * B ^ n + u0 * B ^ (n - 1) := by
      rw [← hut, ← hpow_eq]
      ring
    omega
  have hu_dec_hi : u + 1 ≤ utop * B ^ n + u0 * B ^ (n - 1) + B ^ (n - 1) := by
    have h1 : u < (ut + 1) * B ^ (n - 1) := div_lt_succ_mul u _ hpn1
    have h2 : (ut + 1) * B ^ (n - 1) = utop * B ^ n + u0 * B ^ (n - 1) + B ^ (n - 1) := by
      rw [← hut, ← hpow_eq]
      ring
    omega
  have hu21 : u2 * B + u1 = utop := by
    have h1 : u2 = utop / B := by
      rw [hu2def, hutopdef, Nat.div_div_eq_div_mul, hpow_eq2]
    have h2 := Nat.div_add_mod utop B
    rw [h1, hu1def]
    have h3 : utop / B * B = B * (utop / B) := Nat.mul_comm _ _
    omega
  have hv1pos : 0 < v1 := lt_of_lt_of_le hB2pos hv1
  have hvpos : 0 < v := by
    have h1 : v1 * B ^ n ≤ v := by omega
    have h2 : 0 < v1 * B ^ n := Nat.mul_pos hv1pos hpn
    omega
  set q := u / v with hqdef
  have hqB : q < B := by
    rw [hqdef, Nat.div_lt_iff_lt_mul hvpos]
    have : B * v = v * B := Nat.mul_comm _ _
    omega
  set init := (u2 * B + u1) / v1 with hinitdef
  set rh0 := (u2 * B + u1) % v1 with hrh0def
  have hinit_utop : init = utop / v1 := by rw [hinitdef, hu21]
  have hrh0_utop : rh0 = utop % v1 := by rw [hrh0def, hu21]
  have hutop_eq : utop = init * v1 + rh0 := by
    rw [hinit_utop, hrh0_utop]
    have := Nat.div_add_mod utop v1
    have hcomm : v1 * (utop / v1) = utop / v1 * v1 := Nat.mul_comm _ _
    omega
  have hrh0_lt : rh0 < v1 := by
    rw [hrh0_utop]
    exact Nat.mod_lt _ hv1pos
  have hinit_ge : q ≤ init := by
    rw [hinit_utop, hutopdef, hqdef, Nat.div_div_eq_div_mul]
    apply Nat.div_le_div_left
    · have : B ^ n * v1 = v1 * B ^ n := Nat.mul_comm _ _
      omega
    · exact Nat.mul_pos hpn hv1pos
  have hinit_le : init ≤ q + 2 := by
    have h1 : u < (q + 1) * v := by
      rw [hqdef]
      exact div_lt_succ_mul u v hvpos
    have h2 : v < (v1 + 1) * B ^ n := by
      rw [hv1def]
      exact div_lt_succ_mul v _ hpn
    have h3 : u < (q + 1) * ((v1 + 1) * B ^ n) := by
      calc u < (q + 1) * v := h1
      _ ≤ (q + 1) * ((v1 + 1) * B ^ n) := Nat.mul_le_mul_left _ (le_of_lt h2)
    have h4 : utop < (q + 1) * (v1 + 1) := by
      rw [hutopdef, Nat.div_lt_iff_lt_mul hpn]
      have he : (q + 1) * (v1 + 1) * B ^ n = (q + 1) * ((v1 + 1) * B ^ n) := by ring
      omega
    have h5 : utop < (q + 3) * v1 := by
      have he1 : (q + 1) * (v1 + 1) = q * v1 + q + v1 + 1 := by ring
      have he2 : (q + 3) * v1 = q * v1 + 3 * v1 := by ring
      omega
    rw [hinit_utop]
    have h6 : utop / v1 < q + 3 := by
      rw [Nat.div_lt_iff_lt_mul hv1pos]
      omega
    omega
  have hL2 : ∀ qc rh, utop = qc * v1 + rh → B * rh + u0 < qc * v2 → q < qc := by
    intro qc rh heq hfail
    have e1 : B * utop + u0 + 1 ≤ qc * (B * v1 + v2) := by
      have ee1 : qc * (B * v1 + v2) = B * (qc * v1) + qc * v2 := by ring
      have ee2 : B * utop = B * (qc * v1) + B * rh := by rw [heq]; ring
      omega
    have e2 : u < B ^ (n - 1) * (B * utop + u0 + 1) := by
      have ee : B ^ (n - 1) * (B * utop + u0 + 1) =
          utop * B ^ n + u0 * B ^ (n - 1) + B ^ (n - 1) := by
        rw [← hpow_eq]
        ring
      omega
    have e3 : u < qc * v := by
      calc u < B ^ (n - 1) * (B * utop + u0 + 1) := e2
      _ ≤ B ^ (n - 1) * (qc * (B * v1 + v2)) := Nat.mul_le_mul_left _ e1
      _ = qc * (v1 * B ^ n + v2 * B ^ (n - 1)) := by
          rw [← hpow_eq]
          ring
      _ ≤ qc * v := Nat.mul_le_mul_left _ hv_dec_lo
    rw [hqdef, Nat.div_lt_iff_lt_mul hvpos]
    have : qc * v = v * qc := Nat.mul_comm _ _
    omega
  have hL3 : ∀ qc rh, utop = qc * v1 + rh → qc * v2 ≤ B * rh + u0 → qc ≤ B →
      qc ≤ q + 1 := by
    intro qc rh heq hpass hqcB
    have e1 : qc * (B * v1 + v2) ≤ B * utop + u0 := by
      have ee1 : qc * (B * v1 + v2) = B * (qc * v1) + qc * v2 := by ring
      have ee2 : B * utop = B * (qc * v1) + B * rh := by rw [heq]; ring
      omega
    have e2 : B ^ (n - 1) * (B * utop + u0) ≤ u := by
      have ee : B ^ (n - 1) * (B * utop + u0) =
          utop * B ^ n + u0 * B ^ (n - 1) := by
        rw [← hpow_eq]
        ring
      omega
    have e3 : qc * (v1 * B ^ n + v2 * B ^ (n - 1)) ≤ u := by
      calc qc * (v1 * B ^ n + v2 * B ^ (n - 1))
          = B ^ (n - 1) * (qc * (B * v1 + v2)) := by
            rw [← hpow_eq]
            ring
      _ ≤ B ^ (n - 1) * (B * utop + u0) := Nat.mul_le_mul_left _ e1
      _ ≤ u := e2
    have e4 : qc * v + qc ≤ u + qc * B ^ (n - 1) := by
      have ee1 : qc * (v + 1) ≤ qc * (v1 * B ^ n + v2 * B ^ (n - 1) + B ^ (n - 1)) :=
        Nat.mul_le_mul_left _ hv_dec_hi
      have ee2 : qc * (v + 1) = qc * v + qc := by ring
      have ee3 : qc * (v1 * B ^ n + v2 * B ^ (n - 1) + B ^ (n - 1)) =
          qc * (v1 * B ^ n + v2 * B ^ (n - 1)) + qc * B ^ (n - 1) := by ring
      omega
    have e5 : qc * B ^ (n - 1) ≤ v := by
      have ee1 : qc * B ^ (n - 1) ≤ B * B ^ (n - 1) := Nat.mul_le_mul_right _ hqcB
      have ee2 : B * B ^ (n - 1) = B ^ n := by
        rw [← hpow_eq]
        ring
      have ee3 : B ^ n ≤ v1 * B ^ n := Nat.le_mul_of_pos_left _ hv1pos
      omega
    have e6 : qc * v ≤ u + v := by omega
    have e7 : qc ≤ (u + v) / v := by
      rw [Nat.le_div_iff_mul_le hvpos]
      omega
    rw [Nat.add_div_right u hvpos] at e7
    rw [hqdef]
    omega
  have hgoal : q ≤ qhatAdjust v1 v2 u0 init rh0 ∧ qhatAdjust v1 v2 u0 init rh0 ≤ q + 1 := by
    rw [qhatAdjust]
    by_cases hA : B ≤ init ∨ B * rh0 + u0 < init * v2
    · rw [if_pos hA]
      have hinit1 : 1 ≤ init := by
        rcases hA with h | h
        · exact le_trans (by norm_num [B] : (1 : ℕ) ≤ B) h
        · by_contra h0
          push_neg at h0
          have h00 : init = 0 := Nat.lt_one_iff.mp h0
          rw [h00] at h
          simp at h
      by_cases hBa : rh0 + v1 < B ∧ (B ≤ init - 1 ∨ B * (rh0 + v1) + u0 < (init - 1) * v2)
      · rw [if_pos hBa]
        constructor
        · rcases hBa.2 with h | h
          · omega
          · have hmul : (init - 1) * v1 + v1 = init * v1 := by
              have h1 : init - 1 + 1 = init := by omega
              calc (init - 1) * v1 + v1 = ((init - 1) + 1) * v1 := by ring
              _ = init * v1 := by rw [h1]
            have heq2 : utop = (init - 1) * v1 + (rh0 + v1) := by omega
            have := hL2 (init - 1) (rh0 + v1) heq2 h
            omega
        · omega
      · rw [if_neg hBa]
        constructor
        · rcases hA with h | h
          · omega
          · have := hL2 init rh0 hutop_eq h
            omega
        · omega
    · rw [if_neg hA]
      push_neg at hA
      refine ⟨hinit_ge, ?_⟩
      exact hL3 init rh0 hutop_eq hA.2 (le_of_lt hA.1)
  rw [qhat]
  exact hgoal

/-! The single window step of div_basic: under the window invariant the
effective quotient digit is exact, the add-back (when it happens) always
carries out, and the window is replaced by the remainder. -/

theorem getLast?_eq_getD : ∀ (l : List ℕ), l ≠ [] →
    l.getLast? = some (l.getD (l.length - 1) 0)
  | [], h => absurd rfl h
  | [_], _ => rfl
  | x :: y :: t, _ => by
    rw [List.getLast?_cons_cons]
    rw [getLast?_eq_getD (y :: t) (by simp)]
    congr 1

theorem window_set (A C D : List ℕ) (j L : ℕ) (hA : A.length = j)
    (hC : C.length = L) :
    ((A ++ C ++ D).drop j).take L = C ∧ (A ++ C ++ D).take j = A ∧
      (A ++ C ++ D).drop (j + L) = D ∧
      (A ++ C ++ D).length = j + L + D.length := by
  have hassoc : A ++ C ++ D = A ++ (C ++ D) := by rw [List.append_assoc]
  refine ⟨?_, ?_, ?_, ?_⟩
  · rw [hassoc, List.drop_left' hA, List.take_left' hC]
  · rw [hassoc, List.take_left' hA]
  · have hAC : (A ++ C).length = j + L := by simp [hA, hC]
    rw [List.drop_left' hAC]
  · simp [hA, hC]
    omega

theorem divBasicStep_spec (buf2 buf1 : List ℕ) (n j : ℕ) (hn : 1 ≤ n)
    (hb2len : buf2.length = n + 2) (hb2dig : Digits buf2)
    (hb2hi : toVal buf2 < B ^ (n + 1)) (hv1 : B / 2 ≤ buf2.getD n 0)
    (hb1dig : Digits buf1) (hj : j + n + 2 ≤ buf1.length)
    (hu : toVal ((buf1.drop j).take (n + 2)) < B * toVal buf2) :
    (divBasicStep buf2 (buf2.getD n 0) (buf2.getD (n - 1) 0) n buf1 j).2.2 = true ∧
    (divBasicStep buf2 (buf2.getD n 0) (buf2.getD (n - 1) 0) n buf1 j).2.1 =
      toVal ((buf1.drop j).take (n + 2)) / toVal buf2 ∧
    (divBasicStep buf2 (buf2.getD n 0) (buf2.getD (n - 1) 0) n buf1 j).1.length =
      buf1.length ∧
    Digits (divBasicStep buf2 (buf2.getD n 0) (buf2.getD (n - 1) 0) n buf1 j).1 ∧
    (divBasicStep buf2 (buf2.getD n 0) (buf2.getD (n - 1) 0) n buf1 j).1.take j =
      buf1.take j ∧
    (divBasicStep buf2 (buf2.getD n 0) (buf2.getD (n - 1) 0) n buf1 j).1.drop
        (j + n + 2) = buf1.drop (j + n + 2) ∧
    toVal (((divBasicStep buf2 (buf2.getD n 0) (buf2.getD (n - 1) 0) n buf1 j).1.drop
        j).take (n + 2)) = toVal ((buf1.drop j).take (n + 2)) % toVal buf2 := by
  set ws := (buf1.drop j).take (n + 2) with hwsdef
  have hws_len : ws.length = n + 2 := by
    rw [hwsdef]
    simp [List.length_take, List.length_drop]
    omega
  have hws_dig : Digits ws := digits_take (digits_drop hb1dig j) _
  have hB2pos : 0 < B / 2 := by norm_num [B]
  have hpn : 0 < B ^ n := Nat.pos_pow_of_pos n B_pos
  have hpn1 : 0 < B ^ (n + 1) := Nat.pos_pow_of_pos _ B_pos
  have hpn2 : 0 < B ^ (n + 2) := Nat.pos_pow_of_pos _ B_pos
  have harg1 : buf2.getD n 0 = toVal buf2 / B ^ n := by
    have h1 := getD_eq_val hb2dig n
    have h2 : toVal buf2 / B ^ n < B := by
      rw [Nat.div_lt_iff_lt_mul hpn]
      calc toVal buf2 < B ^ (n + 1) := hb2hi
      _ = B * B ^ n := by rw [pow_succ, Nat.mul_comm]
    rw [h1, Nat.mod_eq_of_lt h2]
  have hv1' : B / 2 ≤ toVal buf2 / B ^ n := by rw [← harg1]; exact hv1
  have hvpos : 0 < toVal buf2 := by
    have h1 : 0 < toVal buf2 / B ^ n := lt_of_lt_of_le hB2pos hv1'
    exact lt_of_lt_of_le h1 (Nat.div_le_self _ _)
  have hwlt : toVal ws < B ^ (n + 2) := by
    have := toVal_lt hws_dig
    rwa [hws_len] at this
  have harg2 : buf2.getD (n - 1) 0 = toVal buf2 / B ^ (n - 1) % B :=
    getD_eq_val hb2dig _
  have harg3 : ws.getD (n + 1) 0 = toVal ws / B ^ (n + 1) := by
    have h1 := getD_eq_val hws_dig (n + 1)
    have h2 : toVal ws / B ^ (n + 1) < B := by
      rw [Nat.div_lt_iff_lt_mul hpn1]
      calc toVal ws < B ^ (n + 2) := hwlt
      _ = B * B ^ (n + 1) := by rw [pow_succ, Nat.mul_comm]
    rw [h1, Nat.mod_eq_of_lt h2]
  have harg4 : ws.getD n 0 = toVal ws / B ^ n % B := getD_eq_val hws_dig _
  have harg5 : ws.getD (n - 1) 0 = toVal ws / B ^ (n - 1) % B :=
    getD_eq_val hws_dig _
  have hqb := qhat_bounds (toVal ws) (toVal buf2) n hn hb2hi hv1' hu
  set qh := qhat (buf2.getD n 0) (buf2.getD (n - 1) 0) (ws.getD (n + 1) 0)
      (ws.getD n 0) (ws.getD (n - 1) 0) with hqhdef
  have hqh_eq : qh = qhat (toVal buf2 / B ^ n) (toVal buf2 / B ^ (n - 1) % B)
      (toVal ws / B ^ (n + 1)) (toVal ws / B ^ n % B)
      (toVal ws / B ^ (n - 1) % B) := by
    rw [hqhdef, harg1, harg2, harg3, harg4, harg5]
  have hq_ge : toVal ws / toVal buf2 ≤ qh := by rw [hqh_eq]; exact hqb.1
  have hq_le : qh ≤ toVal ws / toVal buf2 + 1 := by rw [hqh_eq]; exact hqb.2
  have hqB : toVal ws / toVal buf2 < B := (Nat.div_lt_iff_lt_mul hvpos).mpr hu
  have hqhB : qh ≤ B := by omega
  have hb2ne : buf2 ≠ [] := by
    intro h
    rw [h] at hb2len
    simp at hb2len
  have hlast : buf2.getLast? = some 0 := by
    rw [getLast?_eq_getD buf2 hb2ne, hb2len]
    have h1 : n + 2 - 1 = n + 1 := by omega
    rw [h1, getD_of_lt_pow hb2dig hb2hi]
  obtain ⟨hsplen, hspdig, hspc, hspk, hsptop, hspval⟩ :=
    subMulLoop_spec buf2 ws 0 0 qh hb2dig hws_dig (hws_len.trans hb2len.symm)
      (Nat.zero_le 1) (Nat.pos_pow_of_pos 2 B_pos) hqhB
  have hkf : (subMulLoop qh buf2 ws 0 0).2.2 < B := hsptop hlast
  have hkey : toVal (subMulLoop qh buf2 ws 0 0).1 + qh * toVal buf2 =
      toVal ws + (subMulLoop qh buf2 ws 0 0).2.1 * B ^ (n + 2) := by
    rw [Nat.div_eq_of_lt hkf, Nat.zero_div, hb2len] at hspval
    omega
  have hsplen2 : (subMulLoop qh buf2 ws 0 0).1.length = n + 2 :=
    hsplen.trans hb2len
  have hsplt : toVal (subMulLoop qh buf2 ws 0 0).1 < B ^ (n + 2) := by
    have := toVal_lt hspdig
    rwa [hsplen2] at this
  have hAlen : (buf1.take j).length = j := by
    rw [List.length_take]
    omega
  have hdm : toVal buf2 * (toVal ws / toVal buf2) + toVal ws % toVal buf2 =
      toVal ws := Nat.div_add_mod _ _
  have hmodlt : toVal ws % toVal buf2 < B ^ (n + 2) := by
    have h1 : toVal ws % toVal buf2 < toVal buf2 := Nat.mod_lt _ hvpos
    have h2 : B ^ (n + 1) ≤ B ^ (n + 2) :=
      Nat.pow_le_pow_right B_pos (by omega)
    omega
  have hdef : divBasicStep buf2 (buf2.getD n 0) (buf2.getD (n - 1) 0) n buf1 j =
      if 0 < (subMulLoop qh buf2 ws 0 0).2.1 then
        (buf1.take j ++ (addLoop buf2 (subMulLoop qh buf2 ws 0 0).1 0).1 ++
          buf1.drop (j + n + 2), qh - 1,
          decide (0 < (addLoop buf2 (subMulLoop qh buf2 ws 0 0).1 0).2))
      else
        (buf1.take j ++ (subMulLoop qh buf2 ws 0 0).1 ++ buf1.drop (j + n + 2),
          qh, true) := rfl
  by_cases hcase : 0 < (subMulLoop qh buf2 ws 0 0).2.1
  · -- borrow: one add-back, with carry out and exact digit qh - 1
    have hc1 : (subMulLoop qh buf2 ws 0 0).2.1 = 1 := by omega
    rw [hc1, one_mul] at hkey
    have hult : toVal ws < qh * toVal buf2 := by omega
    have hqlow : toVal ws / toVal buf2 * toVal buf2 ≤ toVal ws :=
      Nat.div_mul_le_self _ _
    have hqlt : toVal ws / toVal buf2 < qh := by
      by_contra hle
      push_neg at hle
      have : qh * toVal buf2 ≤ toVal ws / toVal buf2 * toVal buf2 :=
        Nat.mul_le_mul_right _ hle
      omega
    have hqh1 : qh = toVal ws / toVal buf2 + 1 := by omega
    obtain ⟨halen, hadig, hac, haval⟩ :=
      addLoop_spec buf2 (subMulLoop qh buf2 ws 0 0).1 0 hb2dig hspdig
        (hsplen2.trans hb2len.symm) (Nat.zero_le 1)
    rw [hb2len] at haval
    have halen2 : (addLoop buf2 (subMulLoop qh buf2 ws 0 0).1 0).1.length =
        n + 2 := halen.trans hb2len
    have halt : toVal (addLoop buf2 (subMulLoop qh buf2 ws 0 0).1 0).1 <
        B ^ (n + 2) := by
      have := toVal_lt hadig
      rwa [halen2] at this
    have hqv : qh * toVal buf2 =
        toVal buf2 * (toVal ws / toVal buf2) + toVal buf2 := by
      rw [hqh1]
      ring
    have hcases : (addLoop buf2 (subMulLoop qh buf2 ws 0 0).1 0).2 = 0 ∨
        (addLoop buf2 (subMulLoop qh buf2 ws 0 0).1 0).2 = 1 := by omega
    have hcarry : (addLoop buf2 (subMulLoop qh buf2 ws 0 0).1 0).2 = 1 := by
      rcases hcases with h0 | h1
      · rw [h0, zero_mul] at haval
        omega
      · exact h1
    have haval2 : toVal (addLoop buf2 (subMulLoop qh buf2 ws 0 0).1 0).1 =
        toVal ws % toVal buf2 := by
      rw [hcarry, one_mul] at haval
      omega
    obtain ⟨hwin, htake, hdrop, hlen⟩ :=
      window_set (buf1.take j) (addLoop buf2 (subMulLoop qh buf2 ws 0 0).1 0).1
        (buf1.drop (j + n + 2)) j (n + 2) hAlen halen2
    rw [hdef, if_pos hcase]
    refine ⟨by rw [hcarry]; rfl, ?_, ?_, ?_, htake, hdrop, ?_⟩
    · show qh - 1 = toVal ws / toVal buf2
      rw [hqh1, Nat.add_sub_cancel]
    · rw [hlen]
      simp [List.length_drop]
      omega
    · exact digits_append (digits_append (digits_take hb1dig j) hadig)
        (digits_drop hb1dig _)
    · rw [hwin, haval2]
  · -- no borrow: the estimate was exact
    have hc1 : (subMulLoop qh buf2 ws 0 0).2.1 = 0 := by omega
    rw [hc1, zero_mul, add_zero] at hkey
    have hqle : qh ≤ toVal ws / toVal buf2 := by
      rw [Nat.le_div_iff_mul_le hvpos]
      omega
    have hqeq : qh = toVal ws / toVal buf2 := by omega
    have hspval2 : toVal (subMulLoop qh buf2 ws 0 0).1 =
        toVal ws % toVal buf2 := by
      have hqv : qh * toVal buf2 = toVal buf2 * (toVal ws / toVal buf2) := by
        rw [hqeq]
        ring
      omega
    obtain ⟨hwin, htake, hdrop, hlen⟩ :=
      window_set (buf1.take j) (subMulLoop qh buf2 ws 0 0).1
        (buf1.drop (j + n + 2)) j (n + 2) hAlen hsplen2
    rw [hdef, if_neg hcase]
    refine ⟨rfl, ?_, ?_, ?_, htake, hdrop, ?_⟩
    · show qh = toVal ws / toVal buf2
      exact hqeq
    · rw [hlen]
      simp [List.length_drop]
      omega
    · exact digits_append (digits_append (digits_take hb1dig j) hspdig)
        (digits_drop hb1dig _)
    · rw [hwin, hspval2]

/-! The main-loop invariant of div_basic: every window stays below B times
the normalized divisor, so every step's add-back (if any) ends with a
nonzero carry. -/

theorem normBuf_facts (m : List ℕ) (d : ℕ) (hm : Digits m) (hdB : d ≤ B) :
    toVal (if d = 1 then m ++ [0] else mulByDigit m d) = d * toVal m ∧
    (if d = 1 then m ++ [0] else mulByDigit m d).length = m.length + 1 ∧
    Digits (if d = 1 then m ++ [0] else mulByDigit m d) := by
  have hfit : d * toVal m < B ^ (m.length + 1) := by
    have h1 : toVal m < B ^ m.length := toVal_lt hm
    calc d * toVal m ≤ B * toVal m := Nat.mul_le_mul_right _ hdB
    _ < B * B ^ m.length := mul_lt_mul_of_pos_left h1 B_pos
    _ = B ^ (m.length + 1) := by rw [pow_succ]; ring
  by_cases hd1 : d = 1
  · subst hd1
    rw [if_pos rfl]
    refine ⟨?_, by simp, digits_append hm ?_⟩
    · rw [toVal_append]
      simp [toVal_cons, toVal_nil]
    · intro x hx
      have hx0 : x = 0 := List.mem_singleton.mp hx
      rw [hx0]
      exact B_pos
  · rw [if_neg hd1]
    exact ⟨toVal_ofVal_of_lt hfit, ofVal_length _ _, ofVal_digits _ _⟩

theorem divBasicLoop_assert (buf2 : List ℕ) (n : ℕ) (hn : 1 ≤ n)
    (hb2len : buf2.length = n + 2) (hb2dig : Digits buf2)
    (hb2hi : toVal buf2 < B ^ (n + 1)) (hv1 : B / 2 ≤ buf2.getD n 0) :
    ∀ (j : ℕ) (buf1 : List ℕ) (inl : Bool), Digits buf1 →
      j + n + 2 ≤ buf1.length →
      toVal ((buf1.drop j).take (n + 2)) < B * toVal buf2 →
      (divBasicLoop buf2 (buf2.getD n 0) (buf2.getD (n - 1) 0) n j buf1
        inl).2.2 = true := by
  have hvpos : 0 < toVal buf2 := by
    have h1 : buf2.getD n 0 * B ^ n ≤ toVal buf2 := getD_mul_le hb2dig n
    have h2 : 0 < B / 2 := by norm_num [B]
    have h3 : 0 < B ^ n := Nat.pos_pow_of_pos n B_pos
    have h4 : 0 < buf2.getD n 0 * B ^ n := Nat.mul_pos (by omega) h3
    omega
  intro j
  induction j with
  | zero =>
    intro buf1 inl hdig hlen hu
    obtain ⟨hok, _⟩ := divBasicStep_spec buf2 buf1 n 0 hn hb2len hb2dig hb2hi
      hv1 hdig (by omega) hu
    show (divBasicStep buf2 (buf2.getD n 0) (buf2.getD (n - 1) 0) n buf1
      0).2.2 = true
    exact hok
  | succ j ih =>
    intro buf1 inl hdig hlen hu
    obtain ⟨hok, _, hlen2, hdig2, _, _, hwin⟩ :=
      divBasicStep_spec buf2 buf1 n (j + 1) hn hb2len hb2dig hb2hi hv1 hdig
        hlen hu
    obtain ⟨b1, hb1⟩ : ∃ b1, (divBasicStep buf2 (buf2.getD n 0)
        (buf2.getD (n - 1) 0) n buf1 (j + 1)).1 = b1 := ⟨_, rfl⟩
    rw [hb1] at hlen2 hdig2 hwin
    have hmod : toVal ((buf1.drop (j + 1)).take (n + 2)) % toVal buf2 <
        toVal buf2 := Nat.mod_lt _ hvpos
    have hwv : toVal ((b1.drop j).take (n + 2)) =
        toVal b1 / B ^ j % B ^ (n + 2) := by
      rw [toVal_take (digits_drop hdig2 j), toVal_drop hdig2]
    have hwv1 : toVal b1 / B ^ (j + 1) % B ^ (n + 2) =
        toVal ((buf1.drop (j + 1)).take (n + 2)) % toVal buf2 := by
      rw [← toVal_drop hdig2, ← toVal_take (digits_drop hdig2 (j + 1))]
      exact hwin
    have hsplit : toVal b1 / B ^ j % B ^ (n + 2) =
        toVal b1 / B ^ j % B + B * (toVal b1 / B ^ (j + 1) % B ^ (n + 1)) := by
      have h1 : B ^ (n + 2) = B * B ^ (n + 1) := by rw [pow_succ]; ring
      have h2 : toVal b1 / B ^ j / B = toVal b1 / B ^ (j + 1) := by
        rw [Nat.div_div_eq_div_mul, ← pow_succ]
      rw [h1, Nat.mod_mul, h2]
    have hdown : toVal b1 / B ^ (j + 1) % B ^ (n + 1) =
        toVal ((buf1.drop (j + 1)).take (n + 2)) % toVal buf2 := by
      rw [← Nat.mod_mod_of_dvd _ (pow_dvd_pow B (show n + 1 ≤ n + 2 by omega)),
        hwv1]
      exact Nat.mod_eq_of_lt (lt_trans hmod hb2hi)
    have hfin : toVal ((b1.drop j).take (n + 2)) < B * toVal buf2 := by
      rw [hwv, hsplit, hdown]
      have h1 : toVal b1 / B ^ j % B < B := Nat.mod_lt _ B_pos
      have h2 : B * (toVal ((buf1.drop (j + 1)).take (n + 2)) % toVal buf2 + 1) ≤
          B * toVal buf2 := Nat.mul_le_mul_left _ hmod
      have h3 : B * (toVal ((buf1.drop (j + 1)).take (n + 2)) % toVal buf2 + 1) =
          B * (toVal ((buf1.drop (j + 1)).take (n + 2)) % toVal buf2) + B := by
        ring
      omega
    show ((divBasicStep buf2 (buf2.getD n 0) (buf2.getD (n - 1) 0) n buf1
        (j + 1)).2.2 &&
      (divBasicLoop buf2 (buf2.getD n 0) (buf2.getD (n - 1) 0) n j
        (divBasicStep buf2 (buf2.getD n 0) (buf2.getD (n - 1) 0) n buf1
          (j + 1)).1 true).2.2) = true
    rw [hok, Bool.true_and, hb1]
    exact ih b1 true hdig2 (by omega) hfin

/-- C3 (amended: the divisor's top digit must be nonzero).  div_basic with a
divisor of nonzero top digit always succeeds with every add-back
compensation ending in a nonzero carry: the debug assertion of line 136 of
div.rs holds on every such input.  (Without the top-digit condition the
assertion can fail, see the counterexample.) -/
theorem divBasic_assertOk (m1 m2 : List ℕ) (h1 : Digits m1) (h2 : Digits m2)
    (hl2 : 1 ≤ m2.length) (hl12 : m2.length ≤ m1.length)
    (htop : 0 < m2.getD (m2.length - 1) 0) :
    ∃ qr, divBasic m1 m2 = some (qr, true) := by
  have hne : m2 ≠ [] := by
    intro h
    rw [h] at hl2
    simp at hl2
  by_cases hl21 : m2.length = 1
  · have hh : m2.getD 0 0 = m2.headD 0 := by
      cases m2 with
      | nil => rfl
      | cons a as => rfl
    have htop' : 0 < m2.headD 0 := by
      rw [hl21] at htop
      rw [← hh]
      simpa using htop
    refine ⟨(divBasicSingle m1 (m2.headD 0)), ?_⟩
    simp only [divBasic]
    rw [if_pos hl21, if_neg (by omega)]
  · simp only [divBasic]
    rw [if_neg hl21]
    obtain ⟨hval, hlen, hdig, hhi, hv1⟩ := buf2_full m2 h2 hne htop
    obtain ⟨hb1val, hb1len, hb1dig⟩ :=
      normBuf_facts m1 (B / (m2.getD (m2.length - 1) 0 + 1)) h1
        (Nat.div_le_self _ _)
    obtain ⟨w2, hw2⟩ : ∃ w2, (if B / (m2.getD (m2.length - 1) 0 + 1) = 1 then
        m2 ++ [0] else mulByDigit m2 (B / (m2.getD (m2.length - 1) 0 + 1))) =
          w2 := ⟨_, rfl⟩
    obtain ⟨w1, hw1⟩ : ∃ w1, (if B / (m2.getD (m2.length - 1) 0 + 1) = 1 then
        m1 ++ [0] else mulByDigit m1 (B / (m2.getD (m2.length - 1) 0 + 1))) =
          w1 := ⟨_, rfl⟩
    rw [hw2] at hval hlen hdig hhi hv1
    rw [hw1] at hb1val hb1len hb1dig
    rw [hw1, hw2]
    have hB2 : 0 < B / 2 := by norm_num [B]
    have hguard : ¬ w2.getD (m2.length - 1) 0 = 0 := by omega
    rw [if_neg hguard]
    obtain ⟨j, hj⟩ : ∃ j, m1.length - 1 - (m2.length - 1) = j := ⟨_, rfl⟩
    rw [hj]
    have hn1' : 1 ≤ m2.length - 1 := by omega
    have hb2len' : w2.length = m2.length - 1 + 2 := by rw [hlen]; omega
    have hjlen : j + (m2.length - 1) + 2 ≤
        w1.length := by rw [hb1len]; omega
    have htB : m2.getD (m2.length - 1) 0 < B := by
      rw [getD_eq_val h2]
      exact Nat.mod_lt _ B_pos
    have hdpos : 0 < B / (m2.getD (m2.length - 1) 0 + 1) :=
      Nat.div_pos (by omega) (by omega)
    have hm2ge : B ^ (m2.length - 1) ≤ toVal m2 := by
      have hg := getD_mul_le h2 (m2.length - 1)
      have hx : 1 * B ^ (m2.length - 1) ≤
          m2.getD (m2.length - 1) 0 * B ^ (m2.length - 1) :=
        Nat.mul_le_mul_right _ htop
      rw [one_mul] at hx
      exact le_trans hx hg
    have hwinv : toVal ((w1.drop j).take (m2.length - 1 + 2)) =
        toVal w1 / B ^ j := by
      rw [toVal_take (digits_drop hb1dig _), toVal_drop hb1dig]
      apply Nat.mod_eq_of_lt
      rw [Nat.div_lt_iff_lt_mul (Nat.pos_pow_of_pos _ B_pos)]
      calc toVal w1 < B ^ w1.length := toVal_lt hb1dig
      _ ≤ B ^ (m2.length - 1 + 2) * B ^ j := by
          rw [← pow_add]
          apply Nat.pow_le_pow_right B_pos
          rw [hb1len]
          omega
    have hwin : toVal ((w1.drop j).take (m2.length - 1 + 2)) <
        B * toVal w2 := by
      rw [hwinv, Nat.div_lt_iff_lt_mul (Nat.pos_pow_of_pos _ B_pos), hb1val,
        hval]
      calc B / (m2.getD (m2.length - 1) 0 + 1) * toVal m1
          < B / (m2.getD (m2.length - 1) 0 + 1) * B ^ m1.length :=
            mul_lt_mul_of_pos_left (toVal_lt h1) hdpos
      _ = B / (m2.getD (m2.length - 1) 0 + 1) * B ^ (m2.length - 1) * B *
            B ^ j := by
          rw [show m1.length = m2.length - 1 + 1 + j from by omega, pow_add,
            pow_succ]
          ring
      _ ≤ B / (m2.getD (m2.length - 1) 0 + 1) * toVal m2 * B * B ^ j := by
          apply Nat.mul_le_mul_right
          apply Nat.mul_le_mul_right
          exact Nat.mul_le_mul_left _ hm2ge
      _ = B * (B / (m2.getD (m2.length - 1) 0 + 1) * toVal m2) * B ^ j := by
          ring
    have hloop := divBasicLoop_assert w2 (m2.length - 1) hn1' hb2len' hdig
      hhi hv1 j w1 false hb1dig hjlen hwin
    rw [hloop]
    exact ⟨_, rfl⟩

/-! Characterization of div_correction: when the loop is entered with a
negative partial remainder and a positive step, it runs exactly
ceil(-a / step) = (-a + step - 1) / step iterations, leaving a remainder in
[0, step) and a quotient decremented by the iteration count. -/

theorem divCorrectionGo_nonneg (t : ℕ) (a q step : ℤ) (ha : 0 ≤ a) :
    divCorrectionGo t a q step = (a, q, 0) := by
  cases t with
  | zero => rfl
  | succ t =>
    have hc : ¬ (a < 0 ∧ 0 < step) := by omega
    simp only [divCorrectionGo, if_neg hc]

theorem divCorrectionGo_char (step : ℤ) (hs : 0 < step) :
    ∀ (t : ℕ) (a q : ℤ), a < 0 → (-a).toNat ≤ t →
      divCorrectionGo t a q step =
        (a + step * ((-a + step - 1) / step),
         q - (-a + step - 1) / step,
         ((-a + step - 1) / step).toNat) := by
  intro t
  induction t with
  | zero =>
    intro a q ha ht
    exact absurd ht (by omega)
  | succ t ih =>
    intro a q ha ht
    have hcond : a < 0 ∧ 0 < step := ⟨ha, hs⟩
    simp only [divCorrectionGo, if_pos hcond]
    by_cases ha2 : a + step < 0
    · have hih := ih (a + step) (q - 1) ha2 (by omega)
      obtain ⟨M, hM⟩ : ∃ M, (-(a + step) + step - 1) / step = M := ⟨_, rfl⟩
      have hM0 : 0 ≤ M := hM ▸ Int.ediv_nonneg (by omega) (le_of_lt hs)
      have hNM : (-a + step - 1) / step = M + 1 := by
        have h1 : -a + step - 1 = (-(a + step) + step - 1) + 1 * step := by
          ring
        rw [h1, Int.add_mul_ediv_right _ _ (show step ≠ 0 by omega), hM]
      rw [hih, hM, hNM]
      simp only [Prod.mk.injEq]
      refine ⟨by ring, by ring, by omega⟩
    · rw [divCorrectionGo_nonneg t (a + step) (q - 1) step (by omega)]
      have hN1 : (-a + step - 1) / step = 1 := by
        have h1 : -a + step - 1 = (-a - 1) + 1 * step := by ring
        rw [h1, Int.add_mul_ediv_right _ _ (show step ≠ 0 by omega),
          Int.ediv_eq_zero_of_lt (by omega) (by omega)]
        ring
      rw [hN1]
      simp only [Prod.mk.injEq]
      refine ⟨by ring, by ring, by decide⟩

theorem divCorrection_char (a q step : ℤ) (ha : a < 0) (hs : 0 < step) :
    divCorrection a q step =
      (a + step * ((-a + step - 1) / step),
       q - (-a + step - 1) / step,
       ((-a + step - 1) / step).toNat) :=
  divCorrectionGo_char step hs (-a).toNat a q ha le_rfl

theorem divCorrection_in_range (a q step : ℤ) (ha : a < 0) (hs : 0 < step) :
    0 ≤ (divCorrection a q step).1 ∧ (divCorrection a q step).1 < step := by
  rw [divCorrection_char a q step ha hs]
  obtain ⟨d, hd⟩ : ∃ d, (-a + step - 1) / step = d := ⟨_, rfl⟩
  obtain ⟨r, hr⟩ : ∃ r, (-a + step - 1) % step = r := ⟨_, rfl⟩
  have hdm : step * d + r = -a + step - 1 := by
    rw [← hd, ← hr]
    exact Int.ediv_add_emod _ _
  have hr0 : 0 ≤ r := hr ▸ Int.emod_nonneg _ (by omega)
  have hrlt : r < step := hr ▸ Int.emod_lt_of_pos _ hs
  obtain ⟨P, hP⟩ : ∃ P, step * d = P := ⟨_, rfl⟩
  rw [hP] at hdm
  constructor
  · show 0 ≤ a + step * ((-a + step - 1) / step)
    rw [hd, hP]
    omega
  · show a + step * ((-a + step - 1) / step) < step
    rw [hd, hP]
    omega

/-! The atanh coefficient generator and the series runner, in closed form. -/

theorem genNth_formula : ∀ (k : ℕ) (g : AtanhGen),
    genNth g k = g.one_full_p / (g.acc + 2 * ((k : ℚ) + 1)) := by
  intro k
  induction k with
  | zero =>
    intro g
    show g.next.2 = g.one_full_p / (g.acc + 2 * ((0 : ℚ) + 1))
    simp only [AtanhGen.next]
    norm_num
  | succ k ih =>
    intro g
    show genNth g.next.1 k = _
    rw [ih g.next.1]
    simp only [AtanhGen.next]
    push_cast
    ring_nf

theorem seriesRun_spec : ∀ (n : ℕ) (g : AtanhGen) (acc xf xs : ℚ),
    seriesRun g acc xf xs n =
      acc + ∑ k in Finset.range n, genNth g k * (xf * xs ^ k) := by
  intro n
  induction n with
  | zero =>
    intro g acc xf xs
    simp [seriesRun]
  | succ n ih =>
    intro g acc xf xs
    show seriesRun g.next.1 (acc + g.next.2 * xf) (xf * xs) xs n = _
    rw [ih, Finset.sum_range_succ']
    have h0 : genNth g 0 = g.next.2 := rfl
    have h1 : ∀ k, genNth g (k + 1) = genNth g.next.1 k := fun k => rfl
    simp only [h0, h1, pow_zero, mul_one]
    have hsum : ∀ k ∈ Finset.range n,
        genNth g.next.1 k * (xf * xs * xs ^ k) =
          genNth g.next.1 k * (xf * xs ^ (k + 1)) := by
      intro k _
      ring
    rw [Finset.sum_congr rfl hsum]
    ring

/-! Claim-level theorems, counterexamples and witnesses. -/

/-- C1 (code bug): at the dividend [0, 1, 2147483652, 2147483648] and the
divisor [0, 4294967295] (both well-formed digit lists, dividend normalized,
more dividend digits than divisor digits), div_unbalanced returns a
quotient and remainder that satisfy the multiplicative identity but violate
the remainder bound: r is at least b.  The trim loop of div_recursive
(lines 252-257 of div.rs) has no `else break`, so ub subtracts the count of
every zero digit of the remainder and the low-half division step is
skipped. -/
theorem divUnbalanced_break_bug_eval :
    divUnbalanced [0, 1, 2147483652, 2147483648] [0, 4294967295] =
      some (([0, 2147483649, 0], [0, 1, 5, 0]), (true, 0)) ∧
    toVal [0, 1, 2147483652, 2147483648] =
      toVal [0, 2147483649, 0] * toVal [0, 4294967295] + toVal [0, 1, 5, 0] ∧
    toVal [0, 4294967295] ≤ toVal [0, 1, 5, 0] := by
  decide

/-- C2 (corrected): the dispatch of div_unbalanced (lines 287-293 of
div.rs) sends m ≤ n to div_recursive, not to div_basic; div_basic is taken
exactly when m > n and n < 2, and the chunked loop exactly when m > n and
n ≥ 2 (m = l1 - l2, n = l2). -/
theorem divDispatch_rule (l1 l2 : ℕ) :
    (divDispatch l1 l2 = DivBranch.recursive ↔ l1 - l2 ≤ l2) ∧
    (divDispatch l1 l2 = DivBranch.basic ↔ l2 < l1 - l2 ∧ l2 < 2) ∧
    (divDispatch l1 l2 = DivBranch.chunked ↔ l2 < l1 - l2 ∧ 2 ≤ l2) := by
  unfold divDispatch
  by_cases h1 : l1 - l2 ≤ l2
  · rw [if_pos h1]
    exact ⟨iff_of_true rfl h1,
      iff_of_false (by decide) (by omega),
      iff_of_false (by decide) (by omega)⟩
  · rw [if_neg h1]
    by_cases h2 : l2 < 2
    · rw [if_pos h2]
      exact ⟨iff_of_false (by decide) (by omega),
        iff_of_true rfl (by omega),
        iff_of_false (by decide) (by omega)⟩
    · rw [if_neg h2]
      exact ⟨iff_of_false (by decide) (by omega),
        iff_of_false (by decide) (by omega),
        iff_of_true rfl (by omega)⟩

/-- Counterexample to C2 as stated: at l1 = 4, l2 = 2 we have
m = l1 - l2 = 2 ≤ n = 2, yet the dispatch selects div_recursive, not
div_basic. -/
theorem divDispatch_cex :
    4 - 2 ≤ 2 ∧ divDispatch 4 2 = DivBranch.recursive ∧
      ¬ divDispatch 4 2 = DivBranch.basic := by
  decide

/-- Counterexample to C3 as stated: a divisor of length 3 with top digit 0
and a well-formed dividend of the same length (so l1 ≥ l2 ≥ 1 holds) drive
the add-back compensation to end with zero carry: div_basic returns with
the assertion flag false. -/
theorem divBasic_assert_cex :
    Digits [1090606921, 908492496, 1036470985] ∧
    Digits [4148322572, 1120348605, 0] ∧
    divBasic [1090606921, 908492496, 1036470985]
        [4148322572, 1120348605, 0] =
      some (([3973414133], [2826741453, 4199783564, 0]), false) := by
  decide

/-- Witness for C3: the amended theorem applied at the concrete input
m1 = [0, 0, 2, 3], m2 = [1, 2], all hypotheses discharged by decide. -/
theorem divBasic_assertOk_witness :
    Digits [0, 0, 2, 3] ∧ Digits [1, 2] ∧
    1 ≤ ([1, 2] : List ℕ).length ∧
    ([1, 2] : List ℕ).length ≤ ([0, 0, 2, 3] : List ℕ).length ∧
    0 < ([1, 2] : List ℕ).getD (([1, 2] : List ℕ).length - 1) 0 ∧
    (∃ qr, divBasic [0, 0, 2, 3] [1, 2] = some (qr, true)) :=
  ⟨by decide, by decide, by decide, by decide, by decide,
    divBasic_assertOk [0, 0, 2, 3] [1, 2] (by decide) (by decide)
      (by decide) (by decide) (by decide)⟩

/-- C4 (corrected): the correction loop of div_correction, entered with a
negative partial remainder a and a positive step, runs exactly
ceil(-a / step) = (-a + step - 1) / step iterations, not at most 2; it
decrements the quotient by that count and leaves the remainder in
[0, step). -/
theorem divCorrection_exact_iterations (a q step : ℤ) (ha : a < 0)
    (hs : 0 < step) :
    ((divCorrection a q step).2.2 : ℤ) = (-a + step - 1) / step ∧
    (divCorrection a q step).2.1 = q - (-a + step - 1) / step ∧
    0 ≤ (divCorrection a q step).1 ∧ (divCorrection a q step).1 < step := by
  have hc := divCorrection_char a q step ha hs
  have hr := divCorrection_in_range a q step ha hs
  obtain ⟨d, hd⟩ : ∃ d, (-a + step - 1) / step = d := ⟨_, rfl⟩
  have hd0 : 0 ≤ d := hd ▸ Int.ediv_nonneg (by omega) (by omega)
  rw [hd] at hc ⊢
  refine ⟨?_, ?_, hr.1, hr.2⟩
  · rw [hc]
    show ((d.toNat : ℤ)) = d
    omega
  · rw [hc]

/-- Counterexample to C4 as stated: an actual div_unbalanced run (dividend
[992821822, 1309213432, 3373947434, 4293839179], divisor
[4151706774, 2529736146], both well-formed and normalized) in which a
correction loop runs 3 times. -/
theorem divCorrection_cex :
    (divUnbalanced [992821822, 1309213432, 3373947434, 4293839179]
        [4151706774, 2529736146]).map (fun p => p.2.2) = some 3 ∧
    ¬ (3 : ℕ) ≤ 2 := by
  decide

/-- Witness for C4: the amended theorem applied at a = -5, q = 9,
step = 2, where the loop runs ceil(5/2) = 3 times. -/
theorem divCorrection_exact_iterations_witness :
    (-5 : ℤ) < 0 ∧ (0 : ℤ) < 2 ∧
    (((divCorrection (-5) 9 2).2.2 : ℤ) = (-(-5) + 2 - 1) / 2 ∧
      (divCorrection (-5) 9 2).2.1 = 9 - (-(-5) + 2 - 1) / 2 ∧
      0 ≤ (divCorrection (-5) 9 2).1 ∧ (divCorrection (-5) 9 2).1 < 2) :=
  ⟨by decide, by decide,
    divCorrection_exact_iterations (-5) 9 2 (by decide) (by decide)⟩

/-- C5: BigFloatNumber::ln returns InvalidArgument exactly on zero or
negative arguments (the guard of lines 101-104 of ln.rs), and succeeds with
the pipeline's finite result on every other finite argument, allocations
assumed to succeed. -/
theorem ln_invalid_argument_iff (x : BFN) :
    (ln x = Except.error FError.InvalidArgument ↔
      (x.isZero = true ∨ x.isNegative = true)) ∧
    (ln x = Except.ok (lnBody x) ↔
      (x.isZero = false ∧ x.isNegative = false)) := by
  by_cases h : x.isZero = true ∨ x.isNegative = true
  · have hln : ln x = Except.error FError.InvalidArgument := by
      rw [ln, if_pos h]
    have h2 : ¬ (x.isZero = false ∧ x.isNegative = false) := by
      rcases h with h | h <;> simp [h]
    rw [hln]
    simp [h, h2]
  · have hln : ln x = Except.ok (lnBody x) := by
      rw [ln, if_neg h]
    simp only [not_or, Bool.not_eq_true] at h
    rw [hln]
    simp [h.1, h.2]

/-- C6: ln_arg_restore adds n to the exponent, multiplying the value by
2^n, and ln_series restores the series result with reduction_times + 1
(line 165 of ln.rs), so n reductions are compensated by the factor
2^(n+1). -/
theorem lnArgRestore_exponent (x : BFN) (n : ℕ) :
    (lnArgRestore x n).exp = x.exp + n ∧
    (lnArgRestore x n).value = x.value * 2 ^ n ∧
    (∀ (sq ru : BFN → BFN) (rt : ℕ),
      lnSeries sq ru x rt =
        lnArgRestore (ru (if 0 < rt then lnArgReduce sq x rt else x))
          (rt + 1)) := by
  refine ⟨rfl, ?_, fun sq ru rt => rfl⟩
  show x.sign * x.frac * (2 : ℚ) ^ (x.exp + (n : ℤ)) =
    x.sign * x.frac * (2 : ℚ) ^ x.exp * 2 ^ n
  rw [zpow_add₀ (by norm_num : (2 : ℚ) ≠ 0), zpow_natCast]
  ring

/-- C7: the atanh coefficient generator produces 1/3, 1/5, 1/7, ...
(1/(2k+3) on its k-th call, k counted from zero), and the ln series
evaluation on exact rationals computes z + z^3/3 + z^5/5 + ... truncated
after niter high terms, with z = (f-1)/(f+1): initial term z, step z^2,
coefficients 1/(2k+1). -/
theorem lnSeriesSum_closed_form (f : ℚ) (niter : ℕ) :
    (∀ k : ℕ, genNth AtanhGen.new k = 1 / (2 * (k : ℚ) + 3)) ∧
    lnSeriesSum f niter =
      (f - 1) / (f + 1) +
        ∑ k in Finset.range niter,
          ((f - 1) / (f + 1)) ^ (2 * k + 3) / (2 * (k : ℚ) + 3) := by
  have hgen : ∀ k : ℕ, genNth AtanhGen.new k = 1 / (2 * (k : ℚ) + 3) := by
    intro k
    rw [genNth_formula k AtanhGen.new]
    show (1 : ℚ) / ((1 : ℚ) + 2 * ((k : ℚ) + 1)) = 1 / (2 * (k : ℚ) + 3)
    rw [show (1 : ℚ) + 2 * ((k : ℚ) + 1) = 2 * (k : ℚ) + 3 from by ring]
  refine ⟨hgen, ?_⟩
  show seriesRun AtanhGen.new ((f - 1) / (f + 1))
      ((f - 1) / (f + 1) * ((f - 1) / (f + 1) * ((f - 1) / (f + 1))))
      ((f - 1) / (f + 1) * ((f - 1) / (f + 1))) niter = _
  obtain ⟨z, hz⟩ : ∃ z, (f - 1) / (f + 1) = z := ⟨_, rfl⟩
  rw [hz, seriesRun_spec]
  have hsum : ∀ k ∈ Finset.range niter,
      genNth AtanhGen.new k * (z * (z * z) * (z * z) ^ k) =
        z ^ (2 * k + 3) / (2 * (k : ℚ) + 3) := by
    intro k _
    rw [hgen k]
    ring
  rw [Finset.sum_congr rfl hsum]

/-- C8: the normalization factor of div_basic is d = B / (t + 1) for the
top divisor digit t, and the normalized divisor buffer holds d times the
divisor value with its most significant digit (index n = l2 - 1) at least
B / 2, for every divisor whose top digit is nonzero. -/
theorem divBasic_normalization (m2 : List ℕ) (hd : Digits m2)
    (hne : m2 ≠ []) (htop : 0 < m2.getD (m2.length - 1) 0) :
    toVal (if B / (m2.getD (m2.length - 1) 0 + 1) = 1 then m2 ++ [0]
        else mulByDigit m2 (B / (m2.getD (m2.length - 1) 0 + 1))) =
      B / (m2.getD (m2.length - 1) 0 + 1) * toVal m2 ∧
    B / 2 ≤ (if B / (m2.getD (m2.length - 1) 0 + 1) = 1 then m2 ++ [0]
        else mulByDigit m2 (B / (m2.getD (m2.length - 1) 0 + 1))).getD
      (m2.length - 1) 0 := by
  obtain ⟨h1, _, _, _, h5⟩ := buf2_full m2 hd hne htop
  exact ⟨h1, h5⟩

/-- Witness for C8: the theorem applied at m2 = [5, 7], where d = B / 8 and
the normalized top digit is at least B / 2. -/
theorem divBasic_normalization_witness :
    Digits [5, 7] ∧ ([5, 7] : List ℕ) ≠ [] ∧
    0 < ([5, 7] : List ℕ).getD (([5, 7] : List ℕ).length - 1) 0 ∧
    toVal (mulByDigit [5, 7] (B / 8)) = B / 8 * toVal [5, 7] ∧
    B / 2 ≤ (mulByDigit [5, 7] (B / 8)).getD 1 0 := by
  have h := divBasic_normalization [5, 7] (by decide) (by decide) (by decide)
  exact ⟨by decide, by decide, by decide, h.1, h.2⟩

/-- C10 (code bug): the dividend [0, 7, 3, 0, 2147483648] (5 digits,
normalized top digit) and divisor [0, 0, 2147483648] (3 digits, nonzero)
satisfy l1 ≥ l2 ≥ 1, yet div_unbalanced reaches an inner div_recursive call
whose dividend slice is shorter than its divisor slice, so the usize
subtraction m1.len() - m2.len() of line 211 underflows (modelled as none):
not every length computation stays in bounds under the precondition. -/
theorem divUnbalanced_underflow_eval :
    divUnbalanced [0, 7, 3, 0, 2147483648] [0, 0, 2147483648] = none ∧
    Digits [0, 7, 3, 0, 2147483648] ∧ Digits [0, 0, 2147483648] := by
  decide

end AstroFloat
